import Mathlib

/-!
# Verification of the worldsim decision core

A shallow embedding of the agent decision core of the `worldsim` repository:
the per-agent knowledge store (`src/agent/mind/knowledge.rs`), memory decay
(`src/agent/mind/memory.rs`), the regressive planner
(`src/agent/brains/planner.rs`) and brain arbitration
(`src/agent/brains/arbitration.rs`), together with proofs about them.

Modelling conventions:
* Rust `f32` values (confidence, salience, urgency, costs, brain powers) are
  modelled as `ℚ`; the only transcendental operations the code performs on
  them (`powf` in memory decay, `sqrt` in the planner) are modelled over `ℝ`
  (for decay, where only comparisons matter) and as an opaque parameter (for
  the planner's walk-cost, whose exact value no theorem below depends on).
* `bevy::Entity` is identified by its index, modelled as `Nat`.
* Rust `u64`/`u32` timestamps, quantities and tick counts are `Nat`;
  `i32` tile coordinates are `Int`.
-/

namespace Worldsim

/-- `bevy::Entity`, identified by its index (`Entity::index()`). -/
abbrev Entity := Nat

/-- `ActionType` from `src/agent/actions/types.rs`, in declaration order. -/
inductive ActionType where
  | Eat | Sleep | WakeUp | Drink
  | Harvest | Pickup | Drop
  | Walk | Wander | Explore | Idle
  | Wave | Talk | Introduce | Attack | Flee | Social
  deriving DecidableEq, Repr, Ord

/-- `EmotionType` from `src/agent/psyche/emotions.rs`. -/
inductive EmotionType where
  | Joy | Sadness | Fear | Anger | Disgust | Surprise
  deriving DecidableEq, Repr, Ord

/-- `Concept` from `src/agent/mind/knowledge.rs`, in declaration order. -/
inductive Concept where
  | Thing | Physical | Abstract
  | Person | Animal | Plant | Object
  | Food | Resource | Apple | AppleTree | Berry | BerryBush
  | Wood | Water | Stone | Stick
  | Deer
  | Edible | Prey | Dangerous | Safe | Friendly | Hostile | Neutral
  | Sentient | Harvestable | Awake | Asleep
  | SocialAction | ViolentAction | SurvivalAction | MovementAction
  | HappyMood | SadMood | AngryMood | FearfulMood | NeutralMood
  | Stranger | Acquaintance | Friend | Rival | Enemy
  deriving DecidableEq, Repr, Ord

/-- `Node` from `src/agent/mind/knowledge.rs`. -/
inductive Node where
  | entity (e : Entity)
  | concept (c : Concept)
  | tile (t : Int × Int)
  | chunk (t : Int × Int)
  | area (s : String)
  | event (id : Nat)
  | Self_
  | action (a : ActionType)
  deriving DecidableEq, Repr

/-- `Predicate` from `src/agent/mind/knowledge.rs`, in declaration order
(the order matters because the planner compares predicates by `as usize`). -/
inductive Predicate where
  | IsA | HasTrait
  | LocatedAt | Contains
  | Affords | Produces | Consumes | Satisfies | Requires
  | RegenerationRate | LastObserved
  | Hunger | Energy | Pain | SocialDrive
  | Actor | Action | Target | Result | Timestamp | FeltEmotion
  | Relationship | TrustsFor | Knows | Introduced | NameOf
  | Trust | Affection | Respect | PowerBalance
  | Doing | AppearsMood | AppearsInjured | Heading
  | Explored
  | TriggersEmotion
  deriving DecidableEq, Repr, Ord

/-- `Predicate::is_functional` from `src/agent/mind/knowledge.rs`. -/
def Predicate.is_functional : Predicate → Bool
  | .LocatedAt | .Hunger | .Energy | .RegenerationRate | .LastObserved
  | .Actor | .Action | .Target | .Result | .Timestamp
  | .Trust | .Affection | .Respect | .PowerBalance | .NameOf
  | .Doing | .AppearsMood | .AppearsInjured | .Heading => true
  | _ => false

/-- `Value` from `src/agent/mind/knowledge.rs`; `f32` payloads are `ℚ`. -/
inductive Value where
  | boolean (b : Bool)
  | int (i : Int)
  | float (q : ℚ)
  | concept (c : Concept)
  | entity (e : Entity)
  | tile (t : Int × Int)
  | action (a : ActionType)
  | emotion (e : EmotionType) (intensity : ℚ)
  | item (c : Concept) (quantity : Nat)
  | attitude (q : ℚ)
  | text (s : String)
  deriving DecidableEq, Repr

/-- `MemoryType` from `src/agent/mind/knowledge.rs`. -/
inductive MemoryType where
  | Intrinsic | Cultural | Semantic | Episodic | Procedural | Perception
  deriving DecidableEq, Repr

/-- `Source` from `src/agent/mind/knowledge.rs`. -/
inductive Source where
  | Intrinsic | Cultural | Communicated | Hearsay
  | Observed | Experienced | Inferred | Perception
  deriving DecidableEq, Repr

/-- `Metadata` from `src/agent/mind/knowledge.rs`; `f32` fields are `ℚ`. -/
structure Metadata where
  source : Source
  memory_type : MemoryType
  timestamp : Nat
  confidence : ℚ
  informant : Option Entity
  evidence : List Nat
  salience : ℚ
  deriving DecidableEq, Repr

/-- `Metadata::default()`. -/
def Metadata.default : Metadata :=
  { source := .Intrinsic, memory_type := .Intrinsic, timestamp := 0,
    confidence := 1, informant := none, evidence := [], salience := 0 }

/-- `Triple` from `src/agent/mind/knowledge.rs`. -/
structure Triple where
  subject : Node
  predicate : Predicate
  object : Value
  meta : Metadata
  deriving DecidableEq, Repr

/-- `Triple::new` (default metadata). -/
def Triple.mk' (s : Node) (p : Predicate) (o : Value) : Triple :=
  ⟨s, p, o, Metadata.default⟩

/-! ## Ontology (`src/agent/mind/knowledge.rs`, ONTOLOGY section)

The shared immutable taxonomy: raw triples plus two precomputed caches.
The Rust caches are `HashMap`s; we model them as association lists with the
trait sets as lists. -/

structure Ontology where
  triples : List Triple
  trait_cache : List (Concept × List Concept)
  parent_cache : List (Concept × List Concept)
  deriving DecidableEq, Repr

/-- `Ontology::default()`: empty triples and caches. -/
def Ontology.default : Ontology := ⟨[], [], []⟩

/-- `Ontology::has_trait`: O(1) cache lookup. -/
def Ontology.has_trait (o : Ontology) (concept trait_ : Concept) : Bool :=
  match o.trait_cache.find? (fun e => e.1 = concept) with
  | some e => e.2.contains trait_
  | none => false

/-- `Ontology::is_a`: reflexive, then a direct-parent cache lookup. -/
def Ontology.is_a (o : Ontology) (concept parent : Concept) : Bool :=
  if concept = parent then true
  else
    match o.parent_cache.find? (fun e => e.1 = concept) with
    | some e => e.2.contains parent
    | none => false

/-- `Ontology::get_parents`. -/
def Ontology.get_parents (o : Ontology) (concept : Concept) : List Concept :=
  match o.parent_cache.find? (fun e => e.1 = concept) with
  | some e => e.2
  | none => []

/-! ## MindGraph (`src/agent/mind/knowledge.rs`)

The Rust struct stores three lookup indices (`by_subject`,
`by_subject_pred`, `by_predicate`) alongside the triple list, and every
mutation (`add`, `remove`, `assert`, plus `rebuild_indices` after structural
changes) keeps them equal to exactly the canonical contents computed from the
triple list: `by_subject s` = the positions of the triples with subject `s`
in increasing order, `by_predicate p` likewise, and `by_subject_pred (s, p)`
= the position of the last triple with subject `s` and functional predicate
`p` (rebuild and add both insert, overwriting, in increasing position
order, and keys are inserted only for functional predicates).  We therefore
model the indices by their canonical contents, computed from the triple
list, and the index-maintenance code (`rebuild_indices`, the index updates
in `add`) becomes a no-op. -/

structure MindGraph where
  ontology : Ontology
  /-- `shared_knowledge`: shared cultural triple blocks. -/
  shared_knowledge : List (List Triple)
  /-- The personal triple store. -/
  triples : List Triple
  deriving DecidableEq, Repr

/-- `MindGraph::default()`: empty ontology, no shared blocks, no triples. -/
def MindGraph.default : MindGraph := ⟨Ontology.default, [], []⟩

/-- Does the triple at position `i` of `l` satisfy `pb`? -/
def idxMatches (l : List Triple) (pb : Triple → Bool) (i : Nat) : Bool :=
  match l[i]? with
  | some t => pb t
  | none => false

/-- Positions (in increasing order) of the personal triples with subject
`s`: the canonical contents of the `by_subject` index. -/
def MindGraph.by_subject (m : MindGraph) (s : Node) : List Nat :=
  (List.range m.triples.length).filter
    (idxMatches m.triples fun t => t.subject = s)

/-- Positions of the personal triples with predicate `p`: the canonical
contents of the `by_predicate` index. -/
def MindGraph.by_predicate (m : MindGraph) (p : Predicate) : List Nat :=
  (List.range m.triples.length).filter
    (idxMatches m.triples fun t => t.predicate = p)

/-- The canonical contents of the `by_subject_pred` index: the position of
the last personal triple with subject `s` and predicate `p`, present only
when `p` is functional (both `rebuild_indices` and `add` insert a key only
under `triple.predicate.is_functional()`, each insert overwriting the
previous position). -/
def MindGraph.by_subject_pred (m : MindGraph) (s : Node) (p : Predicate) :
    Option Nat :=
  if p.is_functional then
    ((List.range m.triples.length).filter
      (idxMatches m.triples fun t => t.subject = s ∧ t.predicate = p)).getLast?
  else
    none

/-- The filter closure built at the top of `MindGraph::query` (absent
filters are wildcards, `Option::is_none_or`). -/
def tripleMatches (subject : Option Node) (predicate : Option Predicate)
    (object : Option Value) (t : Triple) : Bool :=
  (match subject with | none => true | some s => t.subject = s) &&
  (match predicate with | none => true | some p => t.predicate = p) &&
  (match object with | none => true | some o => t.object = o)

/-- The `local_iter` part of `MindGraph::query`: LOCAL triples found through
the most selective index available. -/
def MindGraph.queryLocal (m : MindGraph) (subject : Option Node)
    (predicate : Option Predicate) (object : Option Value) : List Triple :=
  let matcher := tripleMatches subject predicate object
  match subject, predicate with
  | some sub, some pred =>
    match m.by_subject_pred sub pred with
    | some idx =>
      match m.triples[idx]? with
      | some t => if matcher t then [t] else []
      | none => []
    | none =>
      -- `by_subject.get(sub)` (a missing key behaves as no matches)
      ((m.by_subject sub).filterMap fun i => m.triples[i]?).filter matcher
  | some sub, none =>
    ((m.by_subject sub).filterMap fun i => m.triples[i]?).filter matcher
  | none, some pred =>
    ((m.by_predicate pred).filterMap fun i => m.triples[i]?).filter matcher
  | none, none => m.triples.filter matcher

/-- `MindGraph::query`: combines Ontology, then shared blocks, then the
local results (the Rust code chains the iterators in exactly this order). -/
def MindGraph.query (m : MindGraph) (subject : Option Node)
    (predicate : Option Predicate) (object : Option Value) : List Triple :=
  let matcher := tripleMatches subject predicate object
  (m.ontology.triples.filter matcher)
    ++ (m.shared_knowledge.flatMap fun blk => blk.filter matcher)
    ++ m.queryLocal subject predicate object

/-- `MindGraph::get`: the `by_subject_pred` index (functional predicates
only), then the first match in each shared block in order, then the
ontology. -/
def MindGraph.get (m : MindGraph) (subject : Node) (predicate : Predicate) :
    Option Value :=
  match m.by_subject_pred subject predicate >>= fun idx => m.triples[idx]? with
  | some t => some t.object
  | none =>
    match m.shared_knowledge.findSome? (fun shared =>
        shared.find? fun t => t.subject = subject ∧ t.predicate = predicate)
      with
    | some t => some t.object
    | none =>
      (m.ontology.triples.find? fun t =>
        t.subject = subject ∧ t.predicate = predicate).map (·.object)

/-- `MindGraph::add`: push the triple (the incremental index updates are
subsumed by the canonical-index model). -/
def MindGraph.add (m : MindGraph) (t : Triple) : MindGraph :=
  { m with triples := m.triples ++ [t] }

/-- The retain predicate of `MindGraph::remove` (negated): an exact
(subject, predicate, object) match. -/
def exactKeyB (s : Node) (p : Predicate) (o : Value) (t : Triple) : Bool :=
  t.subject == s && t.predicate == p && t.object == o

/-- The retain predicate of the `Contains` branch of `MindGraph::assert`
(negated): same subject, `Contains`, and an `Item` object of the same
concept. -/
def containsKeyB (s : Node) (k : Concept) (t : Triple) : Bool :=
  t.subject == s && t.predicate == Predicate.Contains &&
    (match t.object with | .item c _ => c == k | _ => false)

/-- The retain predicate of the functional branch of `MindGraph::assert`
(negated): same subject and predicate. -/
def funcKeyB (s : Node) (p : Predicate) (t : Triple) : Bool :=
  t.subject == s && t.predicate == p

/-- Apply `upd` to the element at position `i` (the effect of mutating the
triple that `iter_mut().find(..)` returns in `MindGraph::assert`). -/
def refreshAt (upd : Triple → Triple) : Nat → List Triple → List Triple
  | _, [] => []
  | 0, x :: xs => upd x :: xs
  | n + 1, x :: xs => x :: refreshAt upd n xs

/-- `MindGraph::remove`: exact-match retain (plus an index rebuild, a no-op
here). -/
def MindGraph.remove (m : MindGraph) (subject : Node) (predicate : Predicate)
    (object : Value) : MindGraph :=
  { m with triples := m.triples.filter fun t =>
      !(exactKeyB subject predicate object t) }

/-- `MindGraph::assert`: insert-or-replace.  `Contains` with an `Item`
object replaces by item concept; other functional predicates replace by
(subject, predicate) when the `by_subject_pred` index has an entry;
non-functional predicates refresh timestamp/confidence of an identical
triple, else append. -/
def MindGraph.assert (m : MindGraph) (triple : Triple) : MindGraph :=
  if triple.predicate = .Contains then
    match triple.object with
    | .item concept _ =>
      -- retain everything that is not (same subject, Contains, Item concept _)
      let m' : MindGraph := { m with triples := m.triples.filter fun t =>
        !(containsKeyB triple.subject concept t) }
      m'.add triple
    | _ => m.add triple
  else if triple.predicate.is_functional then
    match m.by_subject_pred triple.subject triple.predicate with
    | some _ =>
      let m' : MindGraph := { m with triples := m.triples.filter fun t =>
        !(funcKeyB triple.subject triple.predicate t) }
      m'.add triple
    | none => m.add triple
  else
    match m.triples.findIdx? (fun t =>
        t.subject = triple.subject ∧ t.predicate = triple.predicate ∧
        t.object = triple.object) with
    | some i =>
      -- refresh only timestamp and confidence of the existing triple
      { m with triples := refreshAt (fun t =>
          { t with meta := { t.meta with
              timestamp := triple.meta.timestamp,
              confidence := triple.meta.confidence } }) i m.triples }
    | none => m.add triple

/-- `MindGraph::has`. -/
def MindGraph.has (m : MindGraph) (subject : Node) (predicate : Predicate)
    (object : Value) : Bool :=
  !(m.query (some subject) (some predicate) (some object)).isEmpty

/-- `MindGraph::count_of`: the count on the first item-bearing `Contains`
triple for the concept, else 0. -/
def MindGraph.count_of (m : MindGraph) (subject : Node) (concept : Concept) :
    Nat :=
  match (m.query (some subject) (some .Contains) none).findSome? fun t =>
      match t.object with
      | .item c count => if c = concept then some count else none
      | _ => none with
  | some count => count
  | none => 0

/-- `MindGraph::has_any`. -/
def MindGraph.has_any (m : MindGraph) (subject : Node) (concept : Concept) :
    Bool :=
  m.count_of subject concept > 0

/-- `MindGraph::has_any_items`. -/
def MindGraph.has_any_items (m : MindGraph) (subject : Node) : Bool :=
  (m.query (some subject) (some .Contains) none).any fun t =>
    match t.object with
    | .item _ count => count > 0
    | _ => false

/-- `MindGraph::confidence_of`: the confidence of the first `Contains`
triple holding the concept with positive count, else 0. -/
def MindGraph.confidence_of (m : MindGraph) (subject : Node)
    (concept : Concept) : ℚ :=
  match (m.query (some subject) (some .Contains) none).findSome? fun t =>
      match t.object with
      | .item c count =>
        if c = concept ∧ count > 0 then some t.meta.confidence else none
      | _ => none with
  | some conf => conf
  | none => 0

/-! ### `is_a` / `has_trait`

The Rust functions recurse through local/shared `IsA` edges with no
visited-set guard and no depth bound; Rust does not guarantee their
termination.  We embed them with an explicit recursion-depth budget `fuel`:
`none` means the computation did not finish within `fuel` nested calls
(so `∀ fuel, … = none` exhibits divergence of the Rust original), and
`some b` means the Rust function returns `b` (every larger budget returns
the same answer). -/

/-- Fold the recursive parent checks of `is_a`/`has_trait`: the Rust loop
returns `true` at the first parent for which the recursive call is true;
a recursive call that does not finish makes the whole call not finish. -/
def foldParents (rec_ : Concept → Option Bool) : List Triple → Option Bool
  | [] => some false
  | t :: rest =>
    match t.object with
    | .concept parent =>
      match rec_ parent with
      | some true => some true
      | some false => foldParents rec_ rest
      | none => none
    | _ => foldParents rec_ rest

/-- `MindGraph::is_a`, with an explicit recursion budget. -/
def MindGraph.is_aF (m : MindGraph) : Nat → Node → Concept → Option Bool
  | 0, _, _ => none
  | fuel + 1, subject, target =>
    let ontologyHit :=
      match subject with
      | .concept c => m.ontology.is_a c target
      | _ => false
    if ontologyHit then some true
    else if m.has subject .IsA (.concept target) then some true
    else
      foldParents (fun parent => m.is_aF fuel (.concept parent) target)
        (m.query (some subject) (some .IsA) none)

/-- `MindGraph::has_trait`, with an explicit recursion budget. -/
def MindGraph.has_traitF (m : MindGraph) : Nat → Node → Concept → Option Bool
  | 0, _, _ => none
  | fuel + 1, subject, trait_ =>
    let ontologyHit :=
      match subject with
      | .concept c => m.ontology.has_trait c trait_
      | _ => false
    if ontologyHit then some true
    else if m.has subject .HasTrait (.concept trait_) then some true
    else
      foldParents (fun parent => m.has_traitF fuel (.concept parent) trait_)
        (m.query (some subject) (some .IsA) none)

/-! ## Claim C1: the functional-predicate invariant -/

/-- At most one personal triple per (subject, functional predicate), and at
most one personal `Contains` triple per (subject, item concept). -/
def FunctionalInvariant (m : MindGraph) : Prop :=
  (∀ s p, p.is_functional = true → m.triples.countP (funcKeyB s p) ≤ 1) ∧
  (∀ s k, m.triples.countP (containsKeyB s k) ≤ 1)

/-- A store mutation through the public `MindGraph` interface. -/
inductive MindOp where
  | assert (t : Triple)
  | remove (s : Node) (p : Predicate) (o : Value)

/-- Run one operation. -/
def MindOp.apply (m : MindGraph) : MindOp → MindGraph
  | .assert t => m.assert t
  | .remove s p o => m.remove s p o

/-- Run a sequence of operations. -/
def MindGraph.applyOps (m : MindGraph) (ops : List MindOp) : MindGraph :=
  ops.foldl MindOp.apply m

theorem funcKeyB_eq_true {s : Node} {p : Predicate} {t : Triple} :
    funcKeyB s p t = true ↔ t.subject = s ∧ t.predicate = p := by
  simp [funcKeyB]

theorem containsKeyB_eq_true {s : Node} {k : Concept} {t : Triple} :
    containsKeyB s k t = true ↔
      t.subject = s ∧ t.predicate = .Contains ∧ ∃ q, t.object = .item k q := by
  simp only [containsKeyB, Bool.and_eq_true, beq_iff_eq]
  cases t.object <;> simp_all
  exact and_assoc

theorem countP_filter_le {α : Type} (p q : α → Bool) (l : List α) :
    (l.filter q).countP p ≤ l.countP p := by
  rw [List.countP_filter]
  exact List.countP_mono_left fun x _ h => (Bool.and_eq_true _ _ ▸ h).1

theorem countP_refreshAt_meta (p : Triple → Bool)
    (hp : ∀ a ts conf,
      p { a with meta := { a.meta with timestamp := ts, confidence := conf } }
        = p a)
    (ts : Nat) (conf : ℚ) (i : Nat) (l : List Triple) :
    (refreshAt (fun a => { a with meta :=
      { a.meta with timestamp := ts, confidence := conf } }) i l).countP p
      = l.countP p := by
  induction l generalizing i with
  | nil => cases i <;> rfl
  | cons x xs ih =>
    cases i with
    | zero =>
      simp only [refreshAt, List.countP_cons]
      rw [hp x ts conf]
    | succ n =>
      simp only [refreshAt, List.countP_cons, ih n]


theorem idxMatches_of_getElem {l : List Triple} {pb : Triple → Bool}
    {i : Nat} {t : Triple} (h : l[i]? = some t) :
    idxMatches l pb i = pb t := by
  simp [idxMatches, h]

theorem idxMatches_of_none {l : List Triple} {pb : Triple → Bool} {i : Nat}
    (h : l[i]? = none) : idxMatches l pb i = false := by
  simp [idxMatches, h]

/-- When the `by_subject_pred` index has no entry for a functional
predicate, no personal triple has that subject and predicate. -/
theorem by_subject_pred_none {m : MindGraph} {s : Node} {p : Predicate}
    (hf : p.is_functional = true) (h : m.by_subject_pred s p = none) :
    ∀ t ∈ m.triples, funcKeyB s p t = false := by
  intro t ht
  rw [MindGraph.by_subject_pred, if_pos hf, List.getLast?_eq_none_iff,
    List.filter_eq_nil_iff] at h
  obtain ⟨i, hi, hget⟩ := List.mem_iff_getElem.mp ht
  have hg : m.triples[i]? = some t := by
    rw [List.getElem?_eq_getElem hi, hget]
  have hmi := h i (List.mem_range.mpr hi)
  rw [idxMatches_of_getElem hg] at hmi
  simp only [decide_eq_true_eq] at hmi
  rw [funcKeyB, Bool.and_eq_false_iff]
  by_cases hs : t.subject = s
  · right
    simp only [beq_eq_false_iff_ne, ne_eq]
    intro hpp
    exact hmi ⟨hs, hpp⟩
  · left
    simpa using hs

theorem contains_not_functional : Predicate.Contains.is_functional = false :=
  rfl

theorem countP_one_singleton {α : Type} (p : α → Bool) (a : α) :
    List.countP p [a] ≤ 1 := by
  by_cases h : p a <;> simp [List.countP_cons, h]

theorem countP_zero_singleton {α : Type} {p : α → Bool} {a : α}
    (h : p a = false) : List.countP p [a] = 0 := by
  simp [List.countP_cons, h]

/-- A triple whose predicate is `Contains` never counts towards a
functional key. -/
theorem funcKeyB_of_contains {s : Node} {p : Predicate} {t : Triple}
    (hct : t.predicate = .Contains) (hp : p.is_functional = true) :
    funcKeyB s p t = false := by
  rw [funcKeyB, Bool.and_eq_false_iff]
  right
  simp only [beq_eq_false_iff_ne, ne_eq, hct]
  intro hpc
  rw [← hpc] at hp
  exact absurd hp (by rw [contains_not_functional]; simp)

/-- A triple whose predicate is functional never counts towards a
`Contains` key. -/
theorem containsKeyB_of_functional {s : Node} {k : Concept} {t : Triple}
    (hf : t.predicate.is_functional = true) : containsKeyB s k t = false := by
  rw [containsKeyB]
  have : (t.predicate == Predicate.Contains) = false := by
    simp only [beq_eq_false_iff_ne, ne_eq]
    intro h
    rw [h, contains_not_functional] at hf
    cases hf
  simp [this]

/-- A triple whose object is not an `Item` never counts towards a
`Contains` key. -/
theorem containsKeyB_of_nonitem {s : Node} {k : Concept} {t : Triple}
    (h : ∀ c q, t.object ≠ .item c q) : containsKeyB s k t = false := by
  rw [containsKeyB]
  cases hobj : t.object <;> simp_all

/-- Filtering out every triple matching a key gives count zero for it. -/
theorem countP_filter_self (p : Triple → Bool) (l : List Triple) :
    (l.filter fun a => !(p a)).countP p = 0 := by
  rw [List.countP_eq_zero]
  intro a ha
  have := (List.mem_filter.mp ha).2
  simp only [Bool.not_eq_true'] at this
  simp [this]

/-- `assert` preserves the functional-predicate invariant. -/
theorem assert_preserves_invariant (m : MindGraph) (t : Triple)
    (h : FunctionalInvariant m) : FunctionalInvariant (m.assert t) := by
  obtain ⟨hfun, hcon⟩ := h
  rw [MindGraph.assert]
  by_cases hct : t.predicate = .Contains
  · rw [if_pos hct]
    split
    next k q hobj =>
      refine ⟨fun s p hp => ?_, fun s k' => ?_⟩ <;>
        simp only [MindGraph.add, List.countP_append]
      · rw [countP_zero_singleton (funcKeyB_of_contains hct hp)]
        have h2 := countP_filter_le (funcKeyB s p)
          (fun a => !(containsKeyB t.subject k a)) m.triples
        have := hfun s p hp
        omega
      · by_cases hsk : s = t.subject ∧ k' = k
        · obtain ⟨hs, hk⟩ := hsk
          rw [hs, hk, countP_filter_self]
          have := countP_one_singleton (containsKeyB t.subject k) t
          omega
        · have h1 : containsKeyB s k' t = false := by
            rw [containsKeyB, hobj]
            by_cases hs : t.subject = s
            · have hk : k' ≠ k := fun hkk => hsk ⟨hs.symm, hkk⟩
              simp [hs, hct, hk.symm]
            · simp [hs]
          rw [countP_zero_singleton h1]
          have h2 := countP_filter_le (containsKeyB s k')
            (fun a => !(containsKeyB t.subject k a)) m.triples
          have := hcon s k'
          omega
    next hobj =>
      refine ⟨fun s p hp => ?_, fun s k' => ?_⟩ <;>
        simp only [MindGraph.add, List.countP_append]
      · rw [countP_zero_singleton (funcKeyB_of_contains hct hp)]
        have := hfun s p hp
        omega
      · rw [countP_zero_singleton (containsKeyB_of_nonitem
          (fun c q h => hobj c q h))]
        have := hcon s k'
        omega
  · rw [if_neg hct]
    by_cases hf : t.predicate.is_functional
    · rw [if_pos hf]
      split
      next i hidx =>
        refine ⟨fun s p hp => ?_, fun s k' => ?_⟩ <;>
          simp only [MindGraph.add, List.countP_append]
        · by_cases hsp : s = t.subject ∧ p = t.predicate
          · obtain ⟨hs, hpp⟩ := hsp
            subst hs; subst hpp
            rw [countP_filter_self]
            have := countP_one_singleton (funcKeyB t.subject t.predicate) t
            omega
          · have h1 : funcKeyB s p t = false := by
              rw [funcKeyB, Bool.and_eq_false_iff]
              by_cases hs : t.subject = s
              · right
                simp only [beq_eq_false_iff_ne, ne_eq]
                intro hpp
                exact hsp ⟨hs.symm, hpp.symm⟩
              · left; simpa using hs
            rw [countP_zero_singleton h1]
            have h2 := countP_filter_le (funcKeyB s p)
              (fun a => !(funcKeyB t.subject t.predicate a)) m.triples
            have := hfun s p hp
            omega
        · rw [countP_zero_singleton (containsKeyB_of_functional hf)]
          have h2 := countP_filter_le (containsKeyB s k')
            (fun a => !(funcKeyB t.subject t.predicate a)) m.triples
          have := hcon s k'
          omega
      next hidx =>
        refine ⟨fun s p hp => ?_, fun s k' => ?_⟩ <;>
          simp only [MindGraph.add, List.countP_append]
        · by_cases hsp : s = t.subject ∧ p = t.predicate
          · obtain ⟨hs, hpp⟩ := hsp
            subst hs; subst hpp
            have h0 : m.triples.countP (funcKeyB t.subject t.predicate)
                = 0 := by
              rw [List.countP_eq_zero]
              intro a ha hk
              have := by_subject_pred_none hf hidx a ha
              rw [this] at hk
              cases hk
            have := countP_one_singleton (funcKeyB t.subject t.predicate) t
            omega
          · have h1 : funcKeyB s p t = false := by
              rw [funcKeyB, Bool.and_eq_false_iff]
              by_cases hs : t.subject = s
              · right
                simp only [beq_eq_false_iff_ne, ne_eq]
                intro hpp
                exact hsp ⟨hs.symm, hpp.symm⟩
              · left; simpa using hs
            rw [countP_zero_singleton h1]
            have := hfun s p hp
            omega
        · rw [countP_zero_singleton (containsKeyB_of_functional hf)]
          have := hcon s k'
          omega
    · rw [if_neg hf]
      split
      next i hfind =>
        refine ⟨fun s p hp => ?_, fun s k' => ?_⟩
        · rw [countP_refreshAt_meta (funcKeyB s p) (fun a ts conf => rfl)]
          exact hfun s p hp
        · rw [countP_refreshAt_meta (containsKeyB s k')
            (fun a ts conf => rfl)]
          exact hcon s k'
      next hfind =>
        refine ⟨fun s p hp => ?_, fun s k' => ?_⟩ <;>
          simp only [MindGraph.add, List.countP_append]
        · have h1 : funcKeyB s p t = false := by
            rw [funcKeyB, Bool.and_eq_false_iff]
            right
            simp only [beq_eq_false_iff_ne, ne_eq]
            intro hpp
            rw [← hpp] at hp
            exact hf hp
          rw [countP_zero_singleton h1]
          have := hfun s p hp
          omega
        · have h1 : containsKeyB s k' t = false := by
            rw [containsKeyB]
            have : (t.predicate == Predicate.Contains) = false := by
              simp only [beq_eq_false_iff_ne, ne_eq]
              exact hct
            simp [this]
          rw [countP_zero_singleton h1]
          have := hcon s k'
          omega

/-- `remove` preserves the functional-predicate invariant. -/
theorem remove_preserves_invariant (m : MindGraph) (s : Node) (p : Predicate)
    (o : Value) (h : FunctionalInvariant m) :
    FunctionalInvariant (m.remove s p o) := by
  obtain ⟨hfun, hcon⟩ := h
  refine ⟨fun s' p' hp => ?_, fun s' k => ?_⟩
  · exact (countP_filter_le _ _ _).trans (hfun s' p' hp)
  · exact (countP_filter_le _ _ _).trans (hcon s' k)

theorem applyOps_preserves_invariant (m : MindGraph) (ops : List MindOp)
    (h : FunctionalInvariant m) : FunctionalInvariant (m.applyOps ops) := by
  induction ops generalizing m with
  | nil => exact h
  | cons op rest ih =>
    rw [MindGraph.applyOps, List.foldl_cons]
    refine ih _ ?_
    cases op with
    | assert t => exact assert_preserves_invariant m t h
    | remove s p o => exact remove_preserves_invariant m s p o h

/-- An empty personal store satisfies the invariant. -/
theorem invariant_empty (ont : Ontology) (sh : List (List Triple)) :
    FunctionalInvariant ⟨ont, sh, []⟩ :=
  ⟨fun _ _ _ => by simp [List.countP_nil], fun _ _ => by simp [List.countP_nil]⟩

/-- **C1** (confirmed).  For every knowledge store built from an empty
personal store by any sequence of `assert` and `remove` operations (over any
ontology and shared blocks), and for every subject and functional predicate,
at most one personal triple has that subject and predicate; and for
`Contains`, at most one personal triple exists per subject and item concept
(the `Concept` inside a `Value::Item` object). -/
theorem c1_functional_predicate_invariant (ont : Ontology)
    (sh : List (List Triple)) (ops : List MindOp) :
    FunctionalInvariant (MindGraph.applyOps ⟨ont, sh, []⟩ ops) :=
  applyOps_preserves_invariant _ ops (invariant_empty ont sh)

/-! ## Claim C3: query and get, layered resolution -/

/-- `find?` is the head of `filter`. -/
theorem find?_eq_head_filter {α : Type} (p : α → Bool) (l : List α) :
    l.find? p = (l.filter p).head? := by
  induction l with
  | nil => rfl
  | cons x xs ih =>
    by_cases hx : p x
    · rw [List.filter_cons, if_pos hx, List.head?_cons,
        List.find?_cons_of_pos _ hx]
    · rw [Bool.not_eq_true] at hx
      rw [List.filter_cons, if_neg (by simp [hx]),
        List.find?_cons_of_neg _ (by simp [hx]), ih]

/-- Looking positions up through a canonical position index and filtering is
the same as filtering the list directly. -/
theorem range_filter_filterMap (l : List Triple) (pb : Triple → Bool) :
    (((List.range l.length).filter (idxMatches l pb)).filterMap
      fun i => l[i]?) = l.filter pb := by
  induction l with
  | nil => rfl
  | cons x xs ih =>
    rw [List.length_cons, List.range_succ_eq_map, List.filter_cons]
    have hcomp : (idxMatches (x :: xs) pb ∘ Nat.succ) = idxMatches xs pb := by
      funext i
      simp [Function.comp, idxMatches, List.getElem?_cons_succ]
    have hzero : idxMatches (x :: xs) pb 0 = pb x := by
      simp [idxMatches, List.getElem?_cons_zero]
    by_cases hx : pb x
    · rw [if_pos (by rw [hzero, hx])]
      rw [List.filterMap_cons, List.filter_map, hcomp]
      simp only [List.getElem?_cons_zero]
      rw [List.filterMap_map]
      have : ((fun i => (x :: xs)[i]?) ∘ Nat.succ)
          = fun i => xs[i]? := by
        funext i
        simp [Function.comp, List.getElem?_cons_succ]
      rw [this, ih, List.filter_cons, if_pos hx]
    · rw [Bool.not_eq_true] at hx
      rw [if_neg (by rw [hzero, hx]; simp)]
      rw [List.filter_map, hcomp, List.filterMap_map]
      have : ((fun i => (x :: xs)[i]?) ∘ Nat.succ)
          = fun i => xs[i]? := by
        funext i
        simp [Function.comp, List.getElem?_cons_succ]
      rw [this, ih, List.filter_cons, if_neg (by simp [hx])]

/-- When at most one position satisfies `q`, position `i` holds `t` with
`q t`, and `p'` implies `q`, filtering by `p'` yields at most the element
`t`. -/
theorem filter_eq_of_countP_le_one {α : Type} {q p' : α → Bool}
    (hsub : ∀ x, p' x = true → q x = true) :
    ∀ {l : List α} {i : Nat} {t : α}, l.countP q ≤ 1 → l[i]? = some t →
      q t = true → l.filter p' = if p' t then [t] else [] := by
  intro l
  induction l with
  | nil => intro i t _ hget; simp at hget
  | cons x xs ih =>
    intro i t hcount hget hqt
    cases i with
    | zero =>
      rw [List.getElem?_cons_zero, Option.some_inj] at hget
      subst hget
      rw [List.countP_cons, if_pos hqt] at hcount
      have hxs : xs.countP q = 0 := by omega
      have hfil : xs.filter p' = [] := by
        rw [List.filter_eq_nil_iff]
        intro a ha hp'
        have := (List.countP_eq_zero.mp hxs) a ha
        exact this (hsub a hp')
      rw [List.filter_cons, hfil]
    | succ n =>
      rw [List.getElem?_cons_succ] at hget
      have htmem : t ∈ xs := List.getElem?_mem hget
      have hqx : q x = false := by
        by_contra hqx
        rw [Bool.not_eq_false] at hqx
        rw [List.countP_cons, if_pos hqx] at hcount
        have : xs.countP q = 0 := by omega
        exact (List.countP_eq_zero.mp this) t htmem hqt
      have hcxs : xs.countP q ≤ 1 := by
        rw [List.countP_cons] at hcount
        omega
      rw [List.filter_cons, if_neg (by
        intro hp'
        rw [hsub x hp'] at hqx
        cases hqx)]
      exact ih hcxs hget hqt

/-- Unpacking a `by_subject_pred` hit. -/
theorem by_subject_pred_some {m : MindGraph} {s : Node} {p : Predicate}
    {idx : Nat} (h : m.by_subject_pred s p = some idx) :
    p.is_functional = true ∧
      ∃ t, m.triples[idx]? = some t ∧ t.subject = s ∧ t.predicate = p := by
  rw [MindGraph.by_subject_pred] at h
  by_cases hf : p.is_functional
  · rw [if_pos hf] at h
    refine ⟨hf, ?_⟩
    have hidx := List.mem_of_mem_getLast? h
    rw [List.mem_filter] at hidx
    obtain ⟨-, hpred⟩ := hidx
    cases hget : m.triples[idx]? with
    | some t =>
      rw [idxMatches_of_getElem hget] at hpred
      simp only [decide_eq_true_eq] at hpred
      exact ⟨t, rfl, hpred.1, hpred.2⟩
    | none => rw [idxMatches_of_none hget] at hpred; cases hpred
  · rw [if_neg hf] at h
    cases h

theorem tripleMatches_subject {s : Node} {p? : Option Predicate}
    {o? : Option Value} {t : Triple}
    (h : tripleMatches (some s) p? o? t = true) : t.subject = s := by
  simp only [tripleMatches, Bool.and_eq_true, decide_eq_true_eq] at h
  exact h.1.1

theorem tripleMatches_predicate {s? : Option Node} {p : Predicate}
    {o? : Option Value} {t : Triple}
    (h : tripleMatches s? (some p) o? t = true) : t.predicate = p := by
  simp only [tripleMatches, Bool.and_eq_true, decide_eq_true_eq] at h
  exact h.1.2

/-- Under the functional-predicate invariant, the index-driven local part of
`query` equals a naive filter of the personal triples. -/
theorem queryLocal_eq_filter (m : MindGraph)
    (hfun : ∀ s p, p.is_functional = true →
      m.triples.countP (funcKeyB s p) ≤ 1)
    (s? : Option Node) (p? : Option Predicate) (o? : Option Value) :
    m.queryLocal s? p? o? = m.triples.filter (tripleMatches s? p? o?) := by
  cases s? with
  | some s =>
    cases p? with
    | some p =>
      rw [MindGraph.queryLocal]
      cases hidx : m.by_subject_pred s p with
      | some idx =>
        obtain ⟨hf, t, hget, hsub, hpred⟩ := by_subject_pred_some hidx
        dsimp only
        rw [hget]
        dsimp only
        have hqt : funcKeyB s p t = true := by
          rw [funcKeyB]
          simp [hsub, hpred]
        rw [filter_eq_of_countP_le_one
          (fun x hx => by
            rw [funcKeyB]
            simp [tripleMatches_subject hx, tripleMatches_predicate hx])
          (hfun s p hf) hget hqt]
      | none =>
        dsimp only
        rw [MindGraph.by_subject, range_filter_filterMap, List.filter_filter]
        refine List.filter_congr fun x _ => ?_
        by_cases hx : tripleMatches (some s) (some p) o? x
        · rw [hx, Bool.true_and, decide_eq_true (tripleMatches_subject hx)]
        · rw [Bool.not_eq_true] at hx
          rw [hx, Bool.false_and]
    | none =>
      rw [MindGraph.queryLocal, MindGraph.by_subject, range_filter_filterMap,
        List.filter_filter]
      refine List.filter_congr fun x _ => ?_
      by_cases hx : tripleMatches (some s) none o? x
      · rw [hx, Bool.true_and, decide_eq_true (tripleMatches_subject hx)]
      · rw [Bool.not_eq_true] at hx
        rw [hx, Bool.false_and]
  | none =>
    cases p? with
    | some p =>
      rw [MindGraph.queryLocal, MindGraph.by_predicate, range_filter_filterMap,
        List.filter_filter]
      refine List.filter_congr fun x _ => ?_
      by_cases hx : tripleMatches none (some p) o? x
      · rw [hx, Bool.true_and, decide_eq_true (tripleMatches_predicate hx)]
      · rw [Bool.not_eq_true] at hx
        rw [hx, Bool.false_and]
    | none => rfl

/-- The layered reference semantics of `query` (its matching triples are the
ontology matches, then the shared-block matches, then the personal matches,
each by a naive filter, in that order). -/
def querySpec (m : MindGraph) (s? : Option Node) (p? : Option Predicate)
    (o? : Option Value) : List Triple :=
  (m.ontology.triples.filter (tripleMatches s? p? o?))
    ++ (m.shared_knowledge.flatMap fun blk =>
          blk.filter (tripleMatches s? p? o?))
    ++ m.triples.filter (tripleMatches s? p? o?)

/-- The reference semantics of `get`: the unique personal match when the
predicate is functional and a personal match exists, else the first
shared-block match, else the first ontology match. -/
def getSpec (m : MindGraph) (s : Node) (p : Predicate) : Option Value :=
  match (if p.is_functional then
      m.triples.find? (fun t => t.subject = s ∧ t.predicate = p)
    else none) with
  | some t => some t.object
  | none =>
    match m.shared_knowledge.findSome? (fun shared =>
        shared.find? fun t => t.subject = s ∧ t.predicate = p) with
    | some t => some t.object
    | none =>
      (m.ontology.triples.find? fun t =>
        t.subject = s ∧ t.predicate = p).map (·.object)

theorem query_eq_querySpec (m : MindGraph)
    (hfun : ∀ s p, p.is_functional = true →
      m.triples.countP (funcKeyB s p) ≤ 1)
    (s? : Option Node) (p? : Option Predicate) (o? : Option Value) :
    m.query s? p? o? = querySpec m s? p? o? := by
  rw [MindGraph.query, querySpec, queryLocal_eq_filter m hfun]

theorem get_eq_getSpec (m : MindGraph)
    (hfun : ∀ s p, p.is_functional = true →
      m.triples.countP (funcKeyB s p) ≤ 1)
    (s : Node) (p : Predicate) :
    m.get s p = getSpec m s p := by
  rw [MindGraph.get.eq_def, getSpec.eq_def]
  by_cases hf : p.is_functional
  · cases hidx : m.by_subject_pred s p with
    | some idx =>
      obtain ⟨-, t, hget, hsub, hpred⟩ := by_subject_pred_some hidx
      have hqt : funcKeyB s p t = true := by rw [funcKeyB]; simp [hsub, hpred]
      have hfind : m.triples.find?
          (fun a => a.subject = s ∧ a.predicate = p) = some t := by
        rw [find?_eq_head_filter,
          filter_eq_of_countP_le_one
            (fun x hx => by
              rw [funcKeyB]
              have := of_decide_eq_true hx
              simp [this.1, this.2])
            (hfun s p hf) hget hqt,
          if_pos (by simp [hsub, hpred])]
        rfl
      simp only [Option.bind_eq_bind, Option.some_bind]
      rw [hget, if_pos hf, hfind]
    | none =>
      have hnone : m.triples.find?
          (fun a => a.subject = s ∧ a.predicate = p) = none := by
        rw [List.find?_eq_none]
        intro a ha
        have := by_subject_pred_none hf hidx a ha
        rw [funcKeyB, Bool.and_eq_false_iff] at this
        simp only [beq_eq_false_iff_ne, ne_eq] at this
        intro hcontra
        have hc := of_decide_eq_true hcontra
        rcases this with h1 | h2
        · exact h1 hc.1
        · exact h2 hc.2
      simp only [Option.bind_eq_bind, Option.none_bind]
      rw [if_pos hf, hnone]
  · have hnone : m.by_subject_pred s p = none := by
      rw [MindGraph.by_subject_pred, if_neg hf]
    rw [hnone, if_neg hf]
    simp only [Option.bind_eq_bind, Option.none_bind]

/-- The ontology used in the C3 counterexample: it knows
(Self, IsA, Person). -/
def ontC3 : Ontology := ⟨[Triple.mk' .Self_ .IsA (.concept .Person)], [], []⟩

/-- The C3 counterexample store: the personal store (built by `assert`)
holds (Self, IsA, Animal) while the ontology holds (Self, IsA, Person). -/
def cexC3 : MindGraph :=
  (MindGraph.mk ontC3 [] []).assert (Triple.mk' .Self_ .IsA (.concept .Animal))

/-- **C3** (counterexample).  The claim says query results are resolved
personal-first, shared-second, ontology-last, and that `get` returns the
first match in personal → shared → ontology order.  On this store the
matching query results come back ontology-first and personal-last, and
`get` (whose personal lookup goes through the functional-predicate-only
`by_subject_pred` index, and `IsA` is not functional) returns the ontology
match even though a personal match exists. -/
theorem c3_counterexample :
    cexC3.query (some .Self_) (some .IsA) none
        = [Triple.mk' .Self_ .IsA (.concept .Person),
           Triple.mk' .Self_ .IsA (.concept .Animal)] ∧
      Triple.mk' .Self_ .IsA (.concept .Person) ∈ cexC3.ontology.triples ∧
      Triple.mk' .Self_ .IsA (.concept .Animal) ∈ cexC3.triples ∧
      cexC3.get .Self_ .IsA = some (.concept .Person) := by
  decide

/-- **C3** (amended, proved).  For every knowledge store whose personal
triples satisfy the functional-predicate invariant: `query` returns exactly
the matching triples of all three layers, ordered ontology first, shared
blocks second, personal store last (each layer a naive filter in storage
order); and `get` returns the personal match when the predicate is
functional and a personal triple with that subject and predicate exists,
otherwise the first shared-block match, otherwise the first ontology
match. -/
theorem c3_query_get_layered (m : MindGraph) (hinv : FunctionalInvariant m) :
    (∀ s? p? o?, m.query s? p? o? = querySpec m s? p? o?) ∧
    (∀ s p, m.get s p = getSpec m s p) :=
  ⟨fun s? p? o? => query_eq_querySpec m hinv.1 s? p? o?,
   fun s p => get_eq_getSpec m hinv.1 s p⟩

/-- The store used in the C3 witness. -/
def wMindC3 : MindGraph :=
  (MindGraph.mk ontC3 [] []).assert (Triple.mk' .Self_ .Hunger (.int 3))

/-- Witness for `c3_query_get_layered` at a concrete store. -/
theorem c3_query_get_layered_witness :
    FunctionalInvariant wMindC3 ∧
      ((∀ s? p? o?, wMindC3.query s? p? o? = querySpec wMindC3 s? p? o?) ∧
       (∀ s p, wMindC3.get s p = getSpec wMindC3 s p)) :=
  have hinv : FunctionalInvariant wMindC3 :=
    ⟨fun _ _ _ => List.countP_le_length _,
     fun _ _ => List.countP_le_length _⟩
  ⟨hinv, c3_query_get_layered wMindC3 hinv⟩

/-! ## Claim C5: idempotence of re-asserting an identical triple -/

/-- **C5** (counterexample).  The claim says re-asserting a triple identical
to an existing one never changes the personal triple count, for every
predicate including `Contains` with any object shape.  A `Contains` triple
whose object is not an `Item` takes the `Contains` branch of `assert`, whose
`if let Value::Item` replacement does not apply, and is appended again:
the count changes from 1 to 2. -/
theorem c5_counterexample :
    Triple.mk' .Self_ .Contains (.boolean true)
        ∈ (MindGraph.default.assert
            (Triple.mk' .Self_ .Contains (.boolean true))).triples ∧
      (MindGraph.default.assert
          (Triple.mk' .Self_ .Contains (.boolean true))).triples.length = 1 ∧
      ((MindGraph.default.assert
          (Triple.mk' .Self_ .Contains (.boolean true))).assert
            (Triple.mk' .Self_ .Contains (.boolean true))).triples.length
        = 2 := by
  decide

theorem length_filter_not {α : Type} (p : α → Bool) (l : List α) :
    (l.filter fun a => !(p a)).length = l.length - l.countP p := by
  induction l with
  | nil => rfl
  | cons x xs ih =>
    rw [List.filter_cons, List.countP_cons]
    by_cases hx : p x
    · rw [if_neg (by simp [hx]), ih, hx, if_pos rfl, List.length_cons]
      have := @List.countP_le_length _ p xs
      omega
    · rw [Bool.not_eq_true] at hx
      rw [if_pos (by simp [hx]), hx, if_neg (by simp), List.length_cons,
        List.length_cons, ih]
      have := @List.countP_le_length _ p xs
      omega

theorem refreshAt_length (upd : Triple → Triple) (i : Nat)
    (l : List Triple) : (refreshAt upd i l).length = l.length := by
  induction l generalizing i with
  | nil => cases i <;> rfl
  | cons x xs ih =>
    cases i with
    | zero => rfl
    | succ n => simp [refreshAt, ih n]

theorem refreshAt_mem {upd : Triple → Triple} {i : Nat} {l : List Triple}
    {a : Triple} (h : a ∈ refreshAt upd i l) :
    a ∈ l ∨ ∃ b ∈ l, a = upd b := by
  induction l generalizing i with
  | nil => cases i <;> cases h
  | cons x xs ih =>
    cases i with
    | zero =>
      rw [refreshAt, List.mem_cons] at h
      rcases h with h | h
      · exact Or.inr ⟨x, List.mem_cons_self x xs, h⟩
      · exact Or.inl (List.mem_cons_of_mem x h)
    | succ n =>
      rw [refreshAt, List.mem_cons] at h
      rcases h with h | h
      · exact Or.inl (h ▸ List.mem_cons_self x xs)
      · rcases ih h with h' | ⟨b, hb, hab⟩
        · exact Or.inl (List.mem_cons_of_mem x h')
        · exact Or.inr ⟨b, List.mem_cons_of_mem x hb, hab⟩

/-- **C5** (amended, proved).  For a store satisfying the
functional-predicate invariant, if a triple with the same subject,
predicate and object as `t` already exists in the personal store, then:
for a non-functional predicate other than `Contains`, `assert t` keeps the
count and changes no subject/predicate/object and no metadata other than a
timestamp/confidence refresh; for a functional predicate, or `Contains`
with an `Item` object, `assert t` keeps the count and stores `t` itself
(replacing the old triple, metadata included); for `Contains` with a
non-`Item` object, `assert t` appends a duplicate, growing the count by
one. -/
theorem c5_assert_identical (m : MindGraph) (t : Triple)
    (hinv : FunctionalInvariant m)
    (hmem : ∃ ex ∈ m.triples, ex.subject = t.subject ∧
      ex.predicate = t.predicate ∧ ex.object = t.object) :
    ((t.predicate ≠ .Contains ∧ t.predicate.is_functional = false) →
      (m.assert t).triples.length = m.triples.length ∧
        ∀ a ∈ (m.assert t).triples, ∃ b ∈ m.triples,
          a.subject = b.subject ∧ a.predicate = b.predicate ∧
          a.object = b.object ∧ a.meta.source = b.meta.source ∧
          a.meta.memory_type = b.meta.memory_type ∧
          a.meta.salience = b.meta.salience ∧
          a.meta.informant = b.meta.informant ∧
          a.meta.evidence = b.meta.evidence) ∧
    (t.predicate.is_functional = true →
      (m.assert t).triples.length = m.triples.length ∧
        t ∈ (m.assert t).triples) ∧
    ((t.predicate = .Contains ∧ (∃ k q, t.object = .item k q)) →
      (m.assert t).triples.length = m.triples.length ∧
        t ∈ (m.assert t).triples) ∧
    ((t.predicate = .Contains ∧ (∀ k q, t.object ≠ .item k q)) →
      (m.assert t).triples.length = m.triples.length + 1) := by
  obtain ⟨ex, hexmem, hexs, hexp, hexo⟩ := hmem
  refine ⟨?_, ?_, ?_, ?_⟩
  · rintro ⟨hct, hnf⟩
    rw [MindGraph.assert, if_neg hct, if_neg (by simp [hnf])]
    have hfind : ∃ i, m.triples.findIdx? (fun a =>
        a.subject = t.subject ∧ a.predicate = t.predicate ∧
        a.object = t.object) = some i := by
      cases hf : m.triples.findIdx? (fun a =>
          a.subject = t.subject ∧ a.predicate = t.predicate ∧
          a.object = t.object) with
      | some i => exact ⟨i, rfl⟩
      | none =>
        have := (List.findIdx?_eq_none_iff.mp hf) ex hexmem
        rw [decide_eq_false_iff_not] at this
        exact absurd ⟨hexs, hexp, hexo⟩ this
    obtain ⟨i, hf⟩ := hfind
    rw [hf]
    refine ⟨refreshAt_length _ i m.triples, fun a ha => ?_⟩
    rcases refreshAt_mem ha with h | ⟨b, hb, hab⟩
    · exact ⟨a, h, rfl, rfl, rfl, rfl, rfl, rfl, rfl, rfl⟩
    · exact ⟨b, hb, by rw [hab], by rw [hab], by rw [hab], by rw [hab],
        by rw [hab], by rw [hab], by rw [hab], by rw [hab]⟩
  · intro hfn
    have hct : t.predicate ≠ .Contains := by
      intro hc
      rw [hc, contains_not_functional] at hfn
      cases hfn
    rw [MindGraph.assert, if_neg hct, if_pos hfn]
    have hkey : funcKeyB t.subject t.predicate ex = true := by
      rw [funcKeyB]
      simp [hexs, hexp]
    cases hidx : m.by_subject_pred t.subject t.predicate with
    | none =>
      have := by_subject_pred_none hfn hidx ex hexmem
      rw [hkey] at this
      cases this
    | some j =>
      dsimp only
      constructor
      · simp only [MindGraph.add, List.length_append, length_filter_not]
        have hge : 1 ≤ m.triples.countP (funcKeyB t.subject t.predicate) :=
          List.countP_pos_iff.mpr ⟨ex, hexmem, hkey⟩
        have hle := hinv.1 t.subject t.predicate hfn
        have := @List.countP_le_length _ (funcKeyB t.subject t.predicate)
          m.triples
        simp only [List.length_cons, List.length_nil]
        omega
      · simp [MindGraph.add]
  · rintro ⟨hct, k, q, hobj⟩
    rw [MindGraph.assert, if_pos hct, hobj]
    have hkey : containsKeyB t.subject k ex = true := by
      rw [containsKeyB]
      simp only [hexs, hexp, hct, hexo, hobj]
      simp
    constructor
    · simp only [MindGraph.add, List.length_append, length_filter_not]
      have hge : 1 ≤ m.triples.countP (containsKeyB t.subject k) :=
        List.countP_pos_iff.mpr ⟨ex, hexmem, hkey⟩
      have hle := hinv.2 t.subject k
      have := @List.countP_le_length _ (containsKeyB t.subject k) m.triples
      simp only [List.length_cons, List.length_nil]
      omega
    · simp [MindGraph.add]
  · rintro ⟨hct, hni⟩
    rw [MindGraph.assert, if_pos hct]
    split
    next k q hobj => exact absurd hobj (hni k q)
    next hobj => simp [MindGraph.add]

/-- The triple used in the C5 witness. -/
def tC5 : Triple := Triple.mk' .Self_ .Hunger (.int 5)

/-- The store used in the C5 witness: it already holds `tC5`. -/
def wMindC5 : MindGraph := MindGraph.default.assert tC5

/-- Witness for `c5_assert_identical` at a concrete store and triple. -/
theorem c5_assert_identical_witness :
    FunctionalInvariant wMindC5 ∧
      (∃ ex ∈ wMindC5.triples, ex.subject = tC5.subject ∧
        ex.predicate = tC5.predicate ∧ ex.object = tC5.object) ∧
      (tC5.predicate.is_functional = true →
        (wMindC5.assert tC5).triples.length = wMindC5.triples.length ∧
          tC5 ∈ (wMindC5.assert tC5).triples) :=
  have hinv : FunctionalInvariant wMindC5 :=
    ⟨fun _ _ _ => List.countP_le_length _,
     fun _ _ => List.countP_le_length _⟩
  have hmem : ∃ ex ∈ wMindC5.triples, ex.subject = tC5.subject ∧
      ex.predicate = tC5.predicate ∧ ex.object = tC5.object :=
    ⟨tC5, by decide, rfl, rfl, rfl⟩
  ⟨hinv, hmem, (c5_assert_identical wMindC5 tC5 hinv hmem).2.1⟩

/-! ## Claim C4: termination of `is_a` / `has_trait` on malformed taxonomies

`MindGraph::is_a` and `MindGraph::has_trait` recurse through the `IsA`
parents found by `query` with no visited set and no depth bound (only
`all_types` carries a `visited` list).  On a personal store whose `IsA`
edges form a cycle, the Rust recursion never returns: below, no recursion
budget suffices (`is_aF`/`has_traitF` return `none` for every `fuel`). -/

/-- A malformed local taxonomy: Apple IsA Wood and Wood IsA Apple, with an
empty ontology.  Built through `assert`, as perception/communication
write-back would. -/
def cycMind : MindGraph :=
  (MindGraph.default.assert
      (Triple.mk' (.concept .Apple) .IsA (.concept .Wood))).assert
    (Triple.mk' (.concept .Wood) .IsA (.concept .Apple))

theorem foldParents_singleton_concept (rec_ : Concept → Option Bool)
    (t : Triple) (c : Concept) (h : t.object = .concept c)
    (hrec : rec_ c = none) : foldParents rec_ [t] = none := by
  simp only [foldParents, h, hrec]

theorem cyc_aux_is_a : ∀ fuel,
    cycMind.is_aF fuel (.concept .Apple) .Stone = none ∧
    cycMind.is_aF fuel (.concept .Wood) .Stone = none := by
  intro fuel
  induction fuel with
  | zero => exact ⟨rfl, rfl⟩
  | succ n ih =>
    constructor
    · rw [MindGraph.is_aF]
      have h1 : cycMind.ontology.is_a Concept.Apple Concept.Stone = false := by
        decide
      have h2 : cycMind.has (.concept .Apple) .IsA (.concept .Stone)
          = false := by decide
      have hq : cycMind.query (some (.concept .Apple)) (some .IsA) none
          = [Triple.mk' (.concept .Apple) .IsA (.concept .Wood)] := by decide
      simp only [h1, h2, Bool.false_eq_true, if_false, hq]
      exact foldParents_singleton_concept _ _ _ rfl ih.2
    · rw [MindGraph.is_aF]
      have h1 : cycMind.ontology.is_a Concept.Wood Concept.Stone = false := by
        decide
      have h2 : cycMind.has (.concept .Wood) .IsA (.concept .Stone)
          = false := by decide
      have hq : cycMind.query (some (.concept .Wood)) (some .IsA) none
          = [Triple.mk' (.concept .Wood) .IsA (.concept .Apple)] := by decide
      simp only [h1, h2, Bool.false_eq_true, if_false, hq]
      exact foldParents_singleton_concept _ _ _ rfl ih.1

theorem cyc_aux_has_trait : ∀ fuel,
    cycMind.has_traitF fuel (.concept .Apple) .Stone = none ∧
    cycMind.has_traitF fuel (.concept .Wood) .Stone = none := by
  intro fuel
  induction fuel with
  | zero => exact ⟨rfl, rfl⟩
  | succ n ih =>
    constructor
    · rw [MindGraph.has_traitF]
      have h1 : cycMind.ontology.has_trait Concept.Apple Concept.Stone
          = false := by decide
      have h2 : cycMind.has (.concept .Apple) .HasTrait (.concept .Stone)
          = false := by decide
      have hq : cycMind.query (some (.concept .Apple)) (some .IsA) none
          = [Triple.mk' (.concept .Apple) .IsA (.concept .Wood)] := by decide
      simp only [h1, h2, Bool.false_eq_true, if_false, hq]
      exact foldParents_singleton_concept _ _ _ rfl ih.2
    · rw [MindGraph.has_traitF]
      have h1 : cycMind.ontology.has_trait Concept.Wood Concept.Stone
          = false := by decide
      have h2 : cycMind.has (.concept .Wood) .HasTrait (.concept .Stone)
          = false := by decide
      have hq : cycMind.query (some (.concept .Wood)) (some .IsA) none
          = [Triple.mk' (.concept .Wood) .IsA (.concept .Apple)] := by decide
      simp only [h1, h2, Bool.false_eq_true, if_false, hq]
      exact foldParents_singleton_concept _ _ _ rfl ih.1

/-- **C4** (code bug).  The claim (and the spec) say the recursive walk of
`is_a`/`has_trait` is bounded by a visited-set guard and tolerates
malformed taxonomies without looping.  The code has no visited set: on the
cyclic store above, the recursion never completes — no recursion budget
returns an answer, for either query.  (`none` = the computation did not
finish within the budget; the Rust original recurses forever.) -/
theorem c4_is_a_no_visited_guard_diverges :
    (∀ fuel, cycMind.is_aF fuel (.concept .Apple) .Stone = none) ∧
    (∀ fuel, cycMind.has_traitF fuel (.concept .Apple) .Stone = none) :=
  ⟨fun fuel => (cyc_aux_is_a fuel).1, fun fuel => (cyc_aux_has_trait fuel).1⟩

/-! ## Planner data model (`src/agent/brains/thinking.rs`)

`ActionTemplate` additionally carries a conversation `topic` and `content`
in the Rust struct; neither is read anywhere in the planner or arbitration
(they are payload for execution), so they are omitted here. -/

/-- `TriplePattern`: a partially specified triple; `none` = wildcard. -/
structure TriplePattern where
  subject : Option Node
  predicate : Option Predicate
  object : Option Value
  deriving DecidableEq, Repr

/-- `ActionTemplate` (planning-relevant fields).  `Vec2` positions are
pairs of `ℚ`. -/
structure ActionTemplate where
  name : String
  action_type : ActionType
  target_entity : Option Entity
  target_position : Option (ℚ × ℚ)
  preconditions : List TriplePattern
  effects : List Triple
  base_cost : ℚ
  deriving DecidableEq, Repr

/-- `Goal`. -/
structure Goal where
  conditions : List TriplePattern
  priority : ℚ
  deriving DecidableEq, Repr

/-- `pattern_matches_triple` from `src/agent/brains/planner.rs`. -/
def pattern_matches_triple (pattern : TriplePattern) (triple : Triple) :
    Bool :=
  !(match pattern.subject with
    | some s => !(triple.subject = s)
    | none => false) &&
  !(match pattern.predicate with
    | some p => !(triple.predicate = p)
    | none => false) &&
  !(match pattern.object with
    | some o => !(triple.object = o)
    | none => false)

/-- `mind_satisfies_pattern` from `src/agent/brains/planner.rs`: query,
then treat `Item` values with quantity 0 as unsatisfied. -/
def mind_satisfies_pattern (mind : MindGraph) (pattern : TriplePattern) :
    Bool :=
  (mind.query pattern.subject pattern.predicate pattern.object).any
    fun triple =>
      match triple.object with
      | .item _ qty => qty > 0
      | _ => true

/-- `action_satisfies_pattern` from `src/agent/brains/planner.rs`. -/
def action_satisfies_pattern (action : ActionTemplate)
    (pattern : TriplePattern) : Bool :=
  action.effects.any fun effect => pattern_matches_triple pattern effect

/-! ## Claim C8: zero-quantity `Contains` is known-absent -/

/-- Scenario A store: empty personal store, then
assert (Self, Contains, Item(Apple, 0)). -/
def mindA : MindGraph :=
  MindGraph.default.assert (Triple.mk' .Self_ .Contains (.item .Apple 0))

theorem mindA_funcInv : ∀ s p, p.is_functional = true →
    mindA.triples.countP (funcKeyB s p) ≤ 1 :=
  fun _ _ _ => List.countP_le_length _

/-- **C8** (confirmed).  After asserting (Self, Contains, Item(Apple, 0))
into an empty store: the query for (Self, Contains) returns exactly one
triple, of quantity 0; every possession pattern on (Self, Contains) — with
any requested `Item(Apple, n)` object or with a wildcard object — is
unsatisfied; and `count_of`/`has_any`/`confidence_of` all report absence. -/
theorem c8_zero_quantity_known_absent :
    (mindA.query (some .Self_) (some .Contains) none).map (·.object)
        = [.item .Apple 0] ∧
      (∀ n : Nat, mind_satisfies_pattern mindA
        ⟨some .Self_, some .Contains, some (.item .Apple n)⟩ = false) ∧
      mind_satisfies_pattern mindA
        ⟨some .Self_, some .Contains, none⟩ = false ∧
      mindA.count_of .Self_ .Apple = 0 ∧
      mindA.has_any .Self_ .Apple = false ∧
      mindA.confidence_of .Self_ .Apple = 0 := by
  refine ⟨by decide, ?_, by decide, by decide, by decide, by decide⟩
  intro n
  cases n with
  | zero => decide
  | succ k =>
    have hq : mindA.query (some .Self_) (some .Contains)
        (some (.item .Apple (k + 1))) = [] := by
      rw [query_eq_querySpec mindA mindA_funcInv, querySpec]
      have h1 : mindA.ontology.triples = [] := by decide
      have h2 : mindA.shared_knowledge = [] := by decide
      have h3 : mindA.triples
          = [Triple.mk' .Self_ .Contains (.item .Apple 0)] := by decide
      rw [h1, h2, h3]
      simp [tripleMatches, Triple.mk']
    rw [mind_satisfies_pattern]
    rw [hq]
    rfl

/-! ## Arbitration (`src/agent/brains/arbitration.rs`, `proposal.rs`) -/

/-- `BrainType`. -/
inductive BrainType where
  | Survival | Emotional | Rational
  deriving DecidableEq, Repr

/-- `BrainProposal` (urgency is `f32`, modelled as `ℚ`). -/
structure BrainProposal where
  brain : BrainType
  action : ActionTemplate
  urgency : ℚ
  reasoning : String
  deriving DecidableEq, Repr

/-- `BrainPowers`. -/
structure BrainPowers where
  survival : ℚ
  emotional : ℚ
  rational : ℚ
  deriving DecidableEq, Repr

/-- The power of a proposal's brain (the `match proposal.brain` in
`arbitrate`). -/
def brainPower (powers : BrainPowers) : BrainType → ℚ
  | .Survival => powers.survival
  | .Emotional => powers.emotional
  | .Rational => powers.rational

/-- A proposal's arbitration score: urgency × power. -/
def proposalScore (powers : BrainPowers) (p : BrainProposal) : ℚ :=
  p.urgency * brainPower powers p.brain

/-- One iteration of the `arbitrate` loop: keep the proposal whose score
strictly exceeds the best so far. -/
def arbitrateStep (powers : BrainPowers)
    (acc : ℚ × Option (BrainType × BrainProposal)) (p : BrainProposal) :
    ℚ × Option (BrainType × BrainProposal) :=
  let score := proposalScore powers p
  if score > acc.1 then (score, some (p.brain, p)) else acc

/-- `arbitrate`: fold over the flattened proposals with best score starting
at 0.0 and `None` as the initial winner. -/
def arbitrate (proposals : List (Option BrainProposal))
    (powers : BrainPowers) : Option (BrainType × BrainProposal) :=
  (proposals.reduceOption.foldl (arbitrateStep powers) (0, none)).2

theorem arbitrate_fold_fst_mono (powers : BrainPowers)
    (l : List BrainProposal) (acc : ℚ × Option (BrainType × BrainProposal)) :
    acc.1 ≤ (l.foldl (arbitrateStep powers) acc).1 := by
  induction l generalizing acc with
  | nil => exact le_refl _
  | cons x xs ih =>
    rw [List.foldl_cons]
    refine le_trans ?_ (ih (arbitrateStep powers acc x))
    rw [arbitrateStep]
    split <;> simp_all [le_of_lt]

theorem arbitrate_fold_ge_scores (powers : BrainPowers)
    (l : List BrainProposal) (acc : ℚ × Option (BrainType × BrainProposal)) :
    ∀ q ∈ l, proposalScore powers q ≤ (l.foldl (arbitrateStep powers) acc).1
    := by
  induction l generalizing acc with
  | nil => intro q hq; cases hq
  | cons x xs ih =>
    intro q hq
    rw [List.foldl_cons]
    rcases List.mem_cons.mp hq with h | h
    · subst h
      refine le_trans ?_ (arbitrate_fold_fst_mono powers xs _)
      rw [arbitrateStep]
      split
      · exact le_refl _
      · next hn => exact le_of_not_lt hn
    · exact ih _ q h

/-- Invariant of the fold accumulator: the recorded winner carries exactly
the recorded score and its own brain tag. -/
def ArbAccInv (powers : BrainPowers)
    (acc : ℚ × Option (BrainType × BrainProposal)) : Prop :=
  ∀ b p, acc.2 = some (b, p) → acc.1 = proposalScore powers p ∧ b = p.brain

theorem arbitrateStep_inv (powers : BrainPowers)
    (acc : ℚ × Option (BrainType × BrainProposal)) (x : BrainProposal)
    (hacc : ArbAccInv powers acc) :
    ArbAccInv powers (arbitrateStep powers acc x) := by
  rw [ArbAccInv, arbitrateStep]
  split
  · intro b p hbp
    simp only [Option.some_inj, Prod.mk.injEq] at hbp
    obtain ⟨hb, hp⟩ := hbp
    subst hb
    subst hp
    exact ⟨rfl, rfl⟩
  · exact hacc

theorem arbitrate_fold_inv (powers : BrainPowers) (l : List BrainProposal)
    (acc : ℚ × Option (BrainType × BrainProposal))
    (hacc : ArbAccInv powers acc) :
    ArbAccInv powers (l.foldl (arbitrateStep powers) acc) := by
  induction l generalizing acc with
  | nil => exact hacc
  | cons x xs ih =>
    rw [List.foldl_cons]
    exact ih _ (arbitrateStep_inv powers acc x hacc)

theorem arbitrate_fold_zero (powers : BrainPowers) (l : List BrainProposal)
    (hz : ∀ q ∈ l, proposalScore powers q ≤ 0) :
    l.foldl (arbitrateStep powers) (0, none) = (0, none) := by
  induction l with
  | nil => rfl
  | cons x xs ih =>
    rw [List.foldl_cons, arbitrateStep]
    rw [if_neg (by
      simp only [not_lt]
      exact hz x (List.mem_cons_self x xs))]
    exact ih fun q hq => hz q (List.mem_cons_of_mem x hq)

/-- The scenario-C proposals: reflexive/survival urgency 80, associative/
emotional urgency 40, deliberative/rational urgency 20. -/
def wAct : ActionTemplate := ⟨"Idle", .Idle, none, none, [], [], 1⟩

def propSurvival : BrainProposal := ⟨.Survival, wAct, 80, "reflex"⟩

def propEmotional : BrainProposal := ⟨.Emotional, wAct, 40, "assoc"⟩

def propRational : BrainProposal := ⟨.Rational, wAct, 20, "plan"⟩

/-- Scenario-C powers: survival authority 60, emotional 90, rational 100. -/
def powersC : BrainPowers := ⟨60, 90, 100⟩

/-- **C7** (confirmed).  `arbitrate` returns a proposal maximizing
urgency × authority (and tags it with its own brain); on the scenario-C
inputs the scores are 4800, 3600 and 2000 and the survival (reflexive)
proposal wins; an empty proposal set, or one in which every score is zero,
yields `none`. -/
theorem c7_arbitrate_max_score :
    (proposalScore powersC propSurvival = 4800 ∧
      proposalScore powersC propEmotional = 3600 ∧
      proposalScore powersC propRational = 2000 ∧
      arbitrate [some propSurvival, some propEmotional, some propRational]
          powersC = some (.Survival, propSurvival)) ∧
    (∀ powers, arbitrate [] powers = none) ∧
    (∀ proposals powers,
      (∀ q ∈ proposals.reduceOption, proposalScore powers q = 0) →
        arbitrate proposals powers = none) ∧
    (∀ proposals powers b p,
      arbitrate proposals powers = some (b, p) →
        b = p.brain ∧
        ∀ q ∈ proposals.reduceOption,
          proposalScore powers q ≤ proposalScore powers p) := by
  refine ⟨⟨?_, ?_, ?_, ?_⟩, fun powers => rfl, ?_, ?_⟩
  · norm_num [proposalScore, brainPower, propSurvival, powersC]
  · norm_num [proposalScore, brainPower, propEmotional, powersC]
  · norm_num [proposalScore, brainPower, propRational, powersC]
  · rw [arbitrate, show List.reduceOption [some propSurvival,
        some propEmotional, some propRational]
        = [propSurvival, propEmotional, propRational] from rfl]
    norm_num [List.foldl_cons, List.foldl_nil, arbitrateStep, proposalScore,
      brainPower, propSurvival, propEmotional, propRational, powersC]
  · intro proposals powers hz
    rw [arbitrate, arbitrate_fold_zero powers _
      (fun q hq => le_of_eq (hz q hq))]
  · intro proposals powers b p hwin
    rw [arbitrate] at hwin
    have hinv := arbitrate_fold_inv powers proposals.reduceOption (0, none)
      (fun b p h => by cases h)
    obtain ⟨hscore, hbrain⟩ := hinv b p hwin
    refine ⟨hbrain, fun q hq => ?_⟩
    rw [← hscore]
    exact arbitrate_fold_ge_scores powers proposals.reduceOption (0, none) q hq

/-- Witness for `c7_arbitrate_max_score`: its conditional components applied
at concrete inputs. -/
theorem c7_arbitrate_max_score_witness :
    ((∀ q ∈ ([some propRational].reduceOption.map
        fun q => { q with urgency := 0 }), proposalScore powersC q = 0) ∧
      arbitrate ([some propRational].map fun o => o.map
        fun q => { q with urgency := 0 }) powersC = none) ∧
    (arbitrate [some propSurvival, some propEmotional, some propRational]
        powersC = some (.Survival, propSurvival) ∧
      BrainType.Survival = propSurvival.brain ∧
      ∀ q ∈ [some propSurvival, some propEmotional,
          some propRational].reduceOption,
        proposalScore powersC q ≤ proposalScore powersC propSurvival) := by
  have hz : ∀ q ∈ ([some propRational].reduceOption.map
      fun q => { q with urgency := 0 }), proposalScore powersC q = 0 := by
    intro q hq
    simp only [List.reduceOption, List.map, List.mem_singleton] at hq
    subst hq
    norm_num [proposalScore, brainPower, propRational, powersC]
  have hwin : arbitrate [some propSurvival, some propEmotional,
      some propRational] powersC = some (.Survival, propSurvival) := by
    rw [arbitrate, show List.reduceOption [some propSurvival,
        some propEmotional, some propRational]
        = [propSurvival, propEmotional, propRational] from rfl]
    norm_num [List.foldl_cons, List.foldl_nil, arbitrateStep, proposalScore,
      brainPower, propSurvival, propEmotional, propRational, powersC]
  constructor
  · exact ⟨hz, c7_arbitrate_max_score.2.2.1 _ powersC hz⟩
  · exact ⟨hwin, c7_arbitrate_max_score.2.2.2 _ powersC .Survival
      propSurvival hwin⟩

/-! ## Memory decay (`src/agent/mind/memory.rs`)

`should_forget` compares `0.5f32.powf(age / adjusted_half_life)` with the
forget threshold; the `f32` power and comparison are modelled over `ℝ`
(`Real.rpow`), so `should_forget` is a proposition.  A decay pass
(`decay_stale_knowledge`, for an agent whose staggering test fires) retains
each triple unless `should_forget` holds or the triple is an
empty-container belief (`Contains` of `Item(_, 0)`) older than 12 seconds;
with a non-decidable keep-predicate the `Vec::retain` is modelled by the
relation `FilterRel`. -/

/-- `MemoryDecayConfig` (half-lives in seconds, `f32` as `ℚ`). -/
structure MemoryDecayConfig where
  perception_half_life : ℚ
  episodic_half_life : ℚ
  semantic_half_life : ℚ
  salience_multiplier : ℚ
  forget_threshold : ℚ
  decay_interval : Nat
  deriving DecidableEq, Repr

/-- `MemoryDecayConfig::default()`. -/
def MemoryDecayConfig.default : MemoryDecayConfig :=
  ⟨30, 300, 36000, 2, 1 / 10, 60⟩

/-- `MemoryDecayConfig::half_life_for`; `none` models `f32::INFINITY`. -/
def MemoryDecayConfig.half_life_for (c : MemoryDecayConfig) :
    MemoryType → Option ℚ
  | .Perception => some c.perception_half_life
  | .Episodic => some c.episodic_half_life
  | .Semantic => some c.semantic_half_life
  | .Intrinsic => none
  | .Cultural => some (c.semantic_half_life * 2)
  | .Procedural => none

/-- `MemoryDecayConfig::should_forget`: strength
`0.5 ^ (age / (half_life × (1 + salience × multiplier)))` below the
threshold; an infinite half-life never forgets. -/
def MemoryDecayConfig.should_forget (c : MemoryDecayConfig)
    (age_seconds : ℚ) (memory_type : MemoryType) (salience : ℚ) : Prop :=
  match c.half_life_for memory_type with
  | none => False
  | some base_half_life =>
    ((1 : ℝ) / 2) ^
      ((age_seconds /
        (base_half_life * (1 + salience * c.salience_multiplier)) : ℚ) : ℝ)
      < (c.forget_threshold : ℝ)

/-- Age in seconds: `current_time.saturating_sub(timestamp)` (Nat
subtraction) divided by `ticks_per_second`. -/
def ageSeconds (now ts : Nat) (tps : ℚ) : ℚ := ((now - ts : Nat) : ℚ) / tps

/-- The retain predicate of `decay_stale_knowledge`: keep the triple unless
`should_forget` holds, and unless it is an empty-container belief older
than the 12-second threshold. -/
def decayKeeps (c : MemoryDecayConfig) (now : Nat) (tps : ℚ) (t : Triple) :
    Prop :=
  ¬ c.should_forget (ageSeconds now t.meta.timestamp tps)
      t.meta.memory_type t.meta.salience ∧
  ¬ (t.predicate = .Contains ∧ (∃ k, t.object = .item k 0) ∧
      ageSeconds now t.meta.timestamp tps > 12)

/-- `retain` with a propositional predicate, as a relation. -/
inductive FilterRel {α : Type} (P : α → Prop) : List α → List α → Prop
  | nil : FilterRel P [] []
  | keep : ∀ {x : α} {l l' : List α}, P x → FilterRel P l l' →
      FilterRel P (x :: l) (x :: l')
  | drop : ∀ {x : α} {l l' : List α}, ¬ P x → FilterRel P l l' →
      FilterRel P (x :: l) l'

/-- One decay pass over an agent's store (`decay_stale_knowledge` body for
one agent, given its staggering test fires): ontology and shared blocks are
untouched, the personal triples are retained by `decayKeeps`. -/
def DecayPass (c : MemoryDecayConfig) (now : Nat) (tps : ℚ)
    (m m' : MindGraph) : Prop :=
  m'.ontology = m.ontology ∧ m'.shared_knowledge = m.shared_knowledge ∧
  FilterRel (decayKeeps c now tps) m.triples m'.triples

theorem FilterRel.pred_of_mem {α : Type} {P : α → Prop} {l l' : List α}
    (h : FilterRel P l l') : ∀ a ∈ l', P a := by
  induction h with
  | nil => intro a ha; cases ha
  | keep hx _ ih =>
    intro a ha
    rcases List.mem_cons.mp ha with rfl | ha
    · exact hx
    · exact ih a ha
  | drop _ _ ih => exact ih

theorem FilterRel.mem_of_kept {α : Type} {P : α → Prop} {l l' : List α}
    (h : FilterRel P l l') : ∀ a ∈ l, P a → a ∈ l' := by
  induction h with
  | nil => intro a ha; cases ha
  | keep hx _ ih =>
    intro a ha hP
    rcases List.mem_cons.mp ha with rfl | ha
    · exact List.mem_cons_self _ _
    · exact List.mem_cons_of_mem _ (ih a ha hP)
  | drop hx _ ih =>
    intro a ha hP
    rcases List.mem_cons.mp ha with rfl | ha
    · exact absurd hP hx
    · exact ih a ha hP

/-- **C10** (confirmed).  A decay pass removes every personal
empty-container triple (subject, Contains, Item(kind, 0)) whose age
exceeds 12 seconds, whatever its memory type and salience (including
memory types with infinite half-life): no such triple survives the pass,
for any configuration. -/
theorem c10_empty_container_expires (c : MemoryDecayConfig) (now : Nat)
    (tps : ℚ) (m m' : MindGraph) (h : DecayPass c now tps m m') :
    (∀ t ∈ m'.triples,
      ¬ (t.predicate = .Contains ∧ (∃ k, t.object = .item k 0) ∧
          ageSeconds now t.meta.timestamp tps > 12)) ∧
    (∀ t ∈ m.triples,
      t.predicate = .Contains → (∃ k, t.object = .item k 0) →
      ageSeconds now t.meta.timestamp tps > 12 → t ∉ m'.triples) := by
  refine ⟨fun t ht => (h.2.2.pred_of_mem t ht).2, ?_⟩
  intro t _ h1 h2 h3 hmem
  exact (h.2.2.pred_of_mem t hmem).2 ⟨h1, h2, h3⟩

/-- The empty-container triple of the C10 witness: intrinsic memory type
(infinite half-life), high salience, aged 13 seconds. -/
def tEmptyC10 : Triple :=
  ⟨.entity 7, .Contains, .item .Apple 0,
    ⟨.Experienced, .Intrinsic, 0, 1, none, [], 5⟩⟩

/-- Witness for `c10_empty_container_expires` at a concrete pass. -/
theorem c10_empty_container_expires_witness :
    DecayPass MemoryDecayConfig.default 13 1
        ⟨Ontology.default, [], [tEmptyC10]⟩ ⟨Ontology.default, [], []⟩ ∧
      tEmptyC10 ∉ ([] : List Triple) :=
  have hbad : ¬ decayKeeps MemoryDecayConfig.default 13 1 tEmptyC10 :=
    fun hk => hk.2 ⟨rfl, ⟨.Apple, rfl⟩, by norm_num [ageSeconds, tEmptyC10]⟩
  have hpass : DecayPass MemoryDecayConfig.default 13 1
      ⟨Ontology.default, [], [tEmptyC10]⟩ ⟨Ontology.default, [], []⟩ :=
    ⟨rfl, rfl, .drop hbad .nil⟩
  ⟨hpass,
    (c10_empty_container_expires MemoryDecayConfig.default 13 1 _ _
      hpass).2 tEmptyC10 (List.mem_singleton.mpr rfl) rfl ⟨.Apple, rfl⟩
      (by norm_num [ageSeconds, tEmptyC10])⟩

/-- The C9 low-salience perception triple: salience 0, timestamp 0
(age 120 s at tick 120 with one tick per second). -/
def tPercepLow : Triple :=
  ⟨.entity 3, .LocatedAt, .tile (2, 2),
    ⟨.Perception, .Perception, 0, 1, none, [], 0⟩⟩

/-- The C9 high-salience perception triple: identical but salience 1. -/
def tPercepHigh : Triple :=
  ⟨.entity 3, .LocatedAt, .tile (2, 2),
    ⟨.Perception, .Perception, 0, 1, none, [], 1⟩⟩

theorem should_forget_percep_low :
    MemoryDecayConfig.default.should_forget 120 .Perception 0 := by
  rw [MemoryDecayConfig.should_forget,
    show MemoryDecayConfig.default.half_life_for .Perception = some 30
      from rfl]
  dsimp only
  have hq : ((120 / (30 * (1 + 0 *
      MemoryDecayConfig.default.salience_multiplier)) : ℚ) : ℝ)
      = ((4 : ℕ) : ℝ) := by
    norm_num [MemoryDecayConfig.default]
  rw [hq, Real.rpow_natCast]
  norm_num [MemoryDecayConfig.default]

theorem should_forget_percep_high :
    ¬ MemoryDecayConfig.default.should_forget 120 .Perception 1 := by
  rw [MemoryDecayConfig.should_forget,
    show MemoryDecayConfig.default.half_life_for .Perception = some 30
      from rfl]
  dsimp only
  rw [not_lt]
  have hq : ((120 / (30 * (1 + 1 *
      MemoryDecayConfig.default.salience_multiplier)) : ℚ) : ℝ)
      = (4 : ℝ) / 3 := by
    rw [show (1 + 1 * MemoryDecayConfig.default.salience_multiplier : ℚ)
      = 3 from by norm_num [MemoryDecayConfig.default]]
    push_cast
    norm_num
  rw [hq]
  have h2 : ((1 : ℝ) / 2) ^ (((2 : ℕ) : ℝ))
      ≤ ((1 : ℝ) / 2) ^ ((4 : ℝ) / 3) :=
    Real.rpow_le_rpow_of_exponent_ge (by norm_num) (by norm_num)
      (by norm_num)
  rw [Real.rpow_natCast] at h2
  refine le_trans ?_ h2
  norm_num [MemoryDecayConfig.default]

/-- **C9** (confirmed).  For age 120 s under the default decay
configuration: a perception-class triple with salience 0 has decayed
strength 0.5^(120/30) = 1/16 below the forget threshold 0.1 and is absent
after a decay pass, while the identical triple with salience 1 (effective
half-life 30 × (1 + 1 × 2) = 90, strength 0.5^(4/3) > 0.1) survives the
same pass. -/
theorem c9_salience_survives_decay :
    MemoryDecayConfig.default.should_forget 120 .Perception 0 ∧
      ¬ MemoryDecayConfig.default.should_forget 120 .Perception 1 ∧
      ∀ m m', DecayPass MemoryDecayConfig.default 120 1 m m' →
        tPercepLow ∉ m'.triples ∧
        (tPercepHigh ∈ m.triples → tPercepHigh ∈ m'.triples) := by
  refine ⟨should_forget_percep_low, should_forget_percep_high, ?_⟩
  intro m m' hpass
  constructor
  · intro hmem
    have hkeep := hpass.2.2.pred_of_mem tPercepLow hmem
    refine hkeep.1 ?_
    have : ageSeconds 120 tPercepLow.meta.timestamp 1 = 120 := by
      norm_num [ageSeconds, tPercepLow]
    rw [this]
    exact should_forget_percep_low
  · intro hmem
    refine hpass.2.2.mem_of_kept tPercepHigh hmem ?_
    constructor
    · have : ageSeconds 120 tPercepHigh.meta.timestamp 1 = 120 := by
        norm_num [ageSeconds, tPercepHigh]
      rw [this]
      exact should_forget_percep_high
    · rintro ⟨hc, -, -⟩
      cases hc

/-- Witness for `c9_salience_survives_decay`'s decay-pass component at a
concrete pass. -/
theorem c9_salience_survives_decay_witness :
    DecayPass MemoryDecayConfig.default 120 1
        ⟨Ontology.default, [], [tPercepLow, tPercepHigh]⟩
        ⟨Ontology.default, [], [tPercepHigh]⟩ ∧
      tPercepLow ∉ [tPercepHigh] ∧ tPercepHigh ∈ [tPercepHigh] :=
  have hlow : ¬ decayKeeps MemoryDecayConfig.default 120 1 tPercepLow :=
    fun hk => hk.1 (by
      have : ageSeconds 120 tPercepLow.meta.timestamp 1 = 120 := by
        norm_num [ageSeconds, tPercepLow]
      rw [this]
      exact should_forget_percep_low)
  have hhigh : decayKeeps MemoryDecayConfig.default 120 1 tPercepHigh :=
    ⟨by
      have : ageSeconds 120 tPercepHigh.meta.timestamp 1 = 120 := by
        norm_num [ageSeconds, tPercepHigh]
      rw [this]
      exact should_forget_percep_high,
     by rintro ⟨hc, -, -⟩; cases hc⟩
  have hpass : DecayPass MemoryDecayConfig.default 120 1
      ⟨Ontology.default, [], [tPercepLow, tPercepHigh]⟩
      ⟨Ontology.default, [], [tPercepHigh]⟩ :=
    ⟨rfl, rfl, .drop hlow (.keep hhigh .nil)⟩
  ⟨hpass,
    ((c9_salience_survives_decay.2.2 _ _ hpass).1 : _),
    List.mem_singleton.mpr rfl⟩

/-! ## The regressive planner (`src/agent/brains/planner.rs`)

Modelling notes:
* `compare_nodes`/`compare_values` handle same-variant `Entity`, `Concept`,
  `Tile`, `Self_` (resp. `Int`, `Boolean`, `Float`, `Concept`, `Entity`,
  `Tile`) pairs structurally, exactly as the Rust; every other pair falls
  back to comparing `format!("{:?}", ..)` strings.  For cross-variant pairs
  that Debug-string order is the alphabetical order of the variant names
  (no name is a prefix of another), which the tag functions below encode;
  for the remaining same-variant pairs (`Chunk`, `Area`, `Event`, `Action`
  nodes; `Action`, `Emotion`, `Item`, `Attitude`, `Text` values) we
  approximate the Debug-string order by structural order — every theorem
  below that involves pattern sorting uses only that the comparator induces
  a permutation, and no concrete input exercises those pairs.
* `Vec::sort_by` is a stable sort; a stable sort is uniquely determined by
  the comparator, and is modelled by stable insertion sort.
* `HashMap` is modelled as an association list with overwriting insert;
  `RegressiveState` equality (`patterns_eq`, which compares objects via
  `compare_values == Equal`) coincides with structural equality on this
  model.
* `f32::INFINITY` (the default of `g_score.get(..)`) is the `none` case of
  the `Option ℚ` lookups; `∞ + c = ∞` and `∞ < x = false` are mirrored by
  `infLt` never accepting an absent current score.
* `f32::sqrt` in the implicit-movement cost is an opaque parameter
  `sqrtFn`; no theorem below depends on its values.
* The iteration counter is mirrored by the `fuel` argument of `planLoop`:
  fuel 200 allows exactly the 200 processed pops the Rust loop performs
  before `iterations > MAX_ITERATIONS` breaks with no result. -/

/-- Cross-variant order of `Node` Debug names: Action < Area < Chunk <
Concept < Entity < Event < Self_ < Tile. -/
def nodeTag : Node → Nat
  | .action _ => 0
  | .area _ => 1
  | .chunk _ => 2
  | .concept _ => 3
  | .entity _ => 4
  | .event _ => 5
  | .Self_ => 6
  | .tile _ => 7

/-- `compare_nodes`. -/
def compare_nodes (a b : Node) : Ordering :=
  match a, b with
  | .entity e1, .entity e2 => compare e1 e2
  | .concept c1, .concept c2 => compare c1 c2
  | .tile t1, .tile t2 => (compare t1.1 t2.1).then (compare t1.2 t2.2)
  | .Self_, .Self_ => .eq
  | a, b =>
    (compare (nodeTag a) (nodeTag b)).then
      (match a, b with
        | .chunk t1, .chunk t2 =>
          (compare t1.1 t2.1).then (compare t1.2 t2.2)
        | .area s1, .area s2 => compare s1 s2
        | .event e1, .event e2 => compare e1 e2
        | .action a1, .action a2 => compare a1 a2
        | _, _ => .eq)

/-- Cross-variant order of `Value` Debug names: Action < Attitude <
Boolean < Concept < Emotion < Entity < Float < Int < Item < Text < Tile. -/
def valueTag : Value → Nat
  | .action _ => 0
  | .attitude _ => 1
  | .boolean _ => 2
  | .concept _ => 3
  | .emotion _ _ => 4
  | .entity _ => 5
  | .float _ => 6
  | .int _ => 7
  | .item _ _ => 8
  | .text _ => 9
  | .tile _ => 10

/-- `compare_values` (`total_cmp` on `f32` is the order on `ℚ`). -/
def compare_values (a b : Value) : Ordering :=
  match a, b with
  | .int v1, .int v2 => compare v1 v2
  | .boolean v1, .boolean v2 => compare v1 v2
  | .float v1, .float v2 => compare v1 v2
  | .concept c1, .concept c2 => compare c1 c2
  | .entity e1, .entity e2 => compare e1 e2
  | .tile t1, .tile t2 => (compare t1.1 t2.1).then (compare t1.2 t2.2)
  | a, b =>
    (compare (valueTag a) (valueTag b)).then
      (match a, b with
        | .action a1, .action a2 => compare a1 a2
        | .emotion e1 i1, .emotion e2 i2 =>
          (compare e1 e2).then (compare i1 i2)
        | .item c1 q1, .item c2 q2 => (compare c1 c2).then (compare q1 q2)
        | .attitude q1, .attitude q2 => compare q1 q2
        | .text s1, .text s2 => compare s1 s2
        | _, _ => .eq)

/-- `compare_patterns`: subject, then predicate, then object; `None`
sorts before `Some`. -/
def compare_patterns (a b : TriplePattern) : Ordering :=
  (match a.subject, b.subject with
    | some sa, some sb => compare_nodes sa sb
    | none, some _ => .lt
    | some _, none => .gt
    | none, none => .eq).then
  ((match a.predicate, b.predicate with
    | some pa, some pb => compare pa pb
    | none, some _ => .lt
    | some _, none => .gt
    | none, none => .eq).then
  (match a.object, b.object with
    | some oa, some ob => compare_values oa ob
    | none, some _ => .lt
    | some _, none => .gt
    | none, none => .eq))

/-- The sort order induced by `compare_patterns`. -/
def patternLe (a b : TriplePattern) : Prop := compare_patterns a b ≠ .gt

instance : DecidableRel patternLe := fun a b =>
  inferInstanceAs (Decidable (compare_patterns a b ≠ .gt))

/-- `RegressiveState::new` / `normalize`: a stable sort by
`compare_patterns`. -/
def normalizeState (goals : List TriplePattern) : List TriplePattern :=
  goals.insertionSort patternLe

/-- Association-list `HashMap.get`. -/
def hmGet {K V : Type} [DecidableEq K] (m : List (K × V)) (k : K) :
    Option V :=
  (m.find? fun e => e.1 = k).map (·.2)

/-- Association-list `HashMap.remove` (keys are unique). -/
def hmErase {K V : Type} [DecidableEq K] (m : List (K × V)) (k : K) :
    List (K × V) :=
  m.filter fun e => !(e.1 = k)

/-- Association-list `HashMap.insert` (overwrite). -/
def hmInsert {K V : Type} [DecidableEq K] (m : List (K × V)) (k : K)
    (v : V) : List (K × V) :=
  (k, v) :: hmErase m k

/-- The open-set node: (`f_score`, state).  `BinaryHeap` with the reversed
`total_cmp` order pops a node of minimal `f_score` (ties unspecified in
Rust; the model takes the first minimal element). -/
abbrev SearchNode := ℚ × List TriplePattern

/-- `came_from`: child state ↦ (action, parent state). -/
abbrev CameFrom := List (List TriplePattern × (ActionTemplate × List TriplePattern))

/-- `g_score` (absent = `f32::INFINITY`). -/
abbrev GScore := List (List TriplePattern × ℚ)

/-- Pop a node of minimal `f_score`. -/
def popMin : List SearchNode → Option (SearchNode × List SearchNode)
  | [] => none
  | x :: xs =>
    match popMin xs with
    | none => some (x, [])
    | some (m, rest) =>
      if x.1 ≤ m.1 then some (x, xs) else some (m, x :: rest)

/-- `new_cost < g_score.get(next).unwrap_or(INFINITY)`. -/
def infLt (c : ℚ) (old : Option ℚ) : Bool :=
  match old with
  | none => true
  | some d => c < d

/-- `WalkAction::to_template` (`src/agent/actions/action/walk.rs`): no
preconditions, cost 0, one effect placing Self at the tile of the target
world position (`(pos / TILE_SIZE).floor()`, TILE_SIZE = 16). -/
def walkTemplate (target_entity : Option Entity) (pos : ℚ × ℚ) :
    ActionTemplate :=
  { name := "Walk"
    action_type := .Walk
    target_entity := target_entity
    target_position := some pos
    preconditions := []
    effects := [Triple.mk' .Self_ .LocatedAt (.tile (⌊pos.1 / 16⌋, ⌊pos.2 / 16⌋))]
    base_cost := 0 }

/-- The world position the planner computes for a target tile:
`tile * TILE_SIZE + TILE_SIZE / 2`. -/
def tileWorldPos (tile : Int × Int) : ℚ × ℚ :=
  ((tile.1 : ℚ) * 16 + 8, (tile.2 : ℚ) * 16 + 8)

/-- Record one candidate edge `cur --action--> next` of cost `new_cost`:
if it improves on `g_score.get(next)`, insert it into `came_from` and
`g_score` and push it with priority
`new_cost + next.len() * 5.0`. -/
def tryEdge (cur : List TriplePattern) (action : ActionTemplate)
    (next : List TriplePattern) (new_cost : ℚ)
    (acc : List SearchNode × CameFrom × GScore) :
    List SearchNode × CameFrom × GScore :=
  if infLt new_cost (hmGet acc.2.2 next) then
    ((new_cost + (next.length : ℚ) * 5, next) :: acc.1,
     hmInsert acc.2.1 next (action, cur),
     hmInsert acc.2.2 next new_cost)
  else acc

/-- The explicit-action expansion loop (`for action in available_actions`):
for each action whose effects satisfy the target pattern, next state =
remaining goals plus the action's preconditions not already satisfied,
cost = current g + base cost. -/
def expandExplicit (mind : MindGraph) (avail : List ActionTemplate)
    (cur : List TriplePattern) (target : TriplePattern)
    (remaining : List TriplePattern) (curG : ℚ)
    (acc : List SearchNode × CameFrom × GScore) :
    List SearchNode × CameFrom × GScore :=
  avail.foldl
    (fun acc action =>
      if action_satisfies_pattern action target then
        let new_unmet := remaining ++ action.preconditions.filter
          fun pre => !(mind_satisfies_pattern mind pre)
        tryEdge cur action (normalizeState new_unmet)
          (curG + action.base_cost) acc
      else acc)
    acc

/-- The implicit-movement expansion (the special rule): when the target
pattern is (Self, LocatedAt, Tile t) and the agent's believed position is
known, synthesize a Walk with cost `sqrt(Euclidean tile distance)`; when it
is (Self, LocatedAt, Entity e) and both the entity's and the agent's tiles
are known, synthesize a Walk to the entity's tile. -/
def expandWalk (sqrtFn : ℚ → ℚ) (mind : MindGraph)
    (cur : List TriplePattern) (target : TriplePattern)
    (remaining : List TriplePattern) (curG : ℚ)
    (acc : List SearchNode × CameFrom × GScore) :
    List SearchNode × CameFrom × GScore :=
  match target.predicate, target.subject with
  | some .LocatedAt, some .Self_ =>
    let acc1 :=
      match target.object with
      | some (.tile tile) =>
        match mind.get .Self_ .LocatedAt with
        | some (.tile c) =>
          let dist := sqrtFn ((((c.1 - tile.1) ^ 2 + (c.2 - tile.2) ^ 2 :
            Int) : ℚ))
          tryEdge cur (walkTemplate none (tileWorldPos tile))
            (normalizeState remaining) (curG + dist) acc
        | _ => acc
      | _ => acc
    match target.object with
    | some (.entity e) =>
      match mind.get (.entity e) .LocatedAt with
      | some (.tile t) =>
        match mind.get .Self_ .LocatedAt with
        | some (.tile c) =>
          let dist := sqrtFn ((((c.1 - t.1) ^ 2 + (c.2 - t.2) ^ 2 :
            Int) : ℚ))
          tryEdge cur (walkTemplate (some e) (tileWorldPos t))
            (normalizeState remaining) (curG + dist) acc1
        | _ => acc1
      | _ => acc1
    | _ => acc1
  | _, _ => acc

/-- `reconstruct_regressive_path`, with the recursion bounded by the map
size (each step removes the entry it follows, so `came_from.len()` steps
always suffice; the Rust loop stops at the first missing key). -/
def reconstructAux : Nat → CameFrom → List TriplePattern →
    List ActionTemplate
  | 0, _, _ => []
  | n + 1, cf, cur =>
    match hmGet cf cur with
    | none => []
    | some (action, parent) =>
      action :: reconstructAux n (hmErase cf cur) parent

/-- `reconstruct_regressive_path` (no reverse at the end). -/
def reconstruct_regressive_path (cf : CameFrom) (cur : List TriplePattern) :
    List ActionTemplate :=
  reconstructAux cf.length cf cur

/-- The planner search loop.  Each recursive step is one `while let` pop;
`fuel` counts the pops left before `iterations > MAX_ITERATIONS` would
break with no result. -/
def planLoop (sqrtFn : ℚ → ℚ) (mind : MindGraph)
    (avail : List ActionTemplate) :
    Nat → List SearchNode → CameFrom → GScore →
    Option (List ActionTemplate)
  | fuel, openSet, cf, gs =>
    match popMin openSet with
    | none => none
    | some (node, rest) =>
      match fuel with
      | 0 => none
      | fuel' + 1 =>
        match node.2 with
        | [] => some (reconstruct_regressive_path cf node.2)
        | target :: remaining =>
          match hmGet gs node.2 with
          | none =>
            -- current g is INFINITY: every candidate cost is INFINITY and
            -- improves nothing, so the pop expands no edges
            planLoop sqrtFn mind avail fuel' rest cf gs
          | some curG =>
            let acc := expandWalk sqrtFn mind node.2 target remaining curG
              (expandExplicit mind avail node.2 target remaining curG
                (rest, cf, gs))
            planLoop sqrtFn mind avail fuel' acc.1 acc.2.1 acc.2.2

/-- `MAX_ITERATIONS`. -/
def MAX_ITERATIONS : Nat := 200

/-- `regressive_plan`.  The action registry's Walk lookup is built into
`expandWalk` (`expect("Walk action must be registered")`). -/
def regressive_plan (sqrtFn : ℚ → ℚ) (mind : MindGraph) (goal : Goal)
    (available_actions : List ActionTemplate) :
    Option (List ActionTemplate) :=
  let initial_goals := goal.conditions.filter
    fun p => !(mind_satisfies_pattern mind p)
  if initial_goals = [] then some []
  else
    let start := normalizeState initial_goals
    planLoop sqrtFn mind available_actions MAX_ITERATIONS
      [((start.length : ℚ), start)] [] [(start, 0)]

/-- Applying one action's declared effects: assert each effect triple in
order (plan-effect application goes through `MindGraph::assert`). -/
def applyEffects (m : MindGraph) (a : ActionTemplate) : MindGraph :=
  a.effects.foldl MindGraph.assert m

/-- Sequentially applying each returned action's effects in list order. -/
def execPlan (m : MindGraph) (plan : List ActionTemplate) : MindGraph :=
  plan.foldl applyEffects m

/-! ## Claim C2: planner soundness

The regression step for an explicit action keeps the remaining goals and
adds the action's unmet preconditions, but never checks that the action's
*other* effects do not clobber one of the remaining goals.  The two-action
instance below exhibits the resulting unsoundness: the goal is
(Self, Hunger, 0) and (Self, Energy, 100); `EatMeal` achieves Hunger 0 but
also sets Energy to 50; `Rest` sets Energy to 100.  The search finds the
plan [Rest, EatMeal]; executing it ends with Energy 50 (Energy is a
functional predicate, so EatMeal's side effect replaces Rest's), leaving
the Energy goal condition false. -/

/-- Goal condition (Self, Hunger, 0). -/
def gH : TriplePattern := ⟨some .Self_, some .Hunger, some (.int 0)⟩

/-- Goal condition (Self, Energy, 100). -/
def gE : TriplePattern := ⟨some .Self_, some .Energy, some (.int 100)⟩

/-- The counterexample goal: Hunger 0 and Energy 100. -/
def cexGoal : Goal := ⟨[gH, gE], 1⟩

/-- EatMeal: no preconditions, cost 1, sets Hunger to 0 and Energy to 50. -/
def cexA1 : ActionTemplate :=
  ⟨"EatMeal", .Eat, none, none, [],
    [Triple.mk' .Self_ .Hunger (.int 0),
      Triple.mk' .Self_ .Energy (.int 50)], 1⟩

/-- Rest: no preconditions, cost 1, sets Energy to 100. -/
def cexA2 : ActionTemplate :=
  ⟨"Rest", .Sleep, none, none, [],
    [Triple.mk' .Self_ .Energy (.int 100)], 1⟩

/-- Counterexample to C2: on an empty store, with goal
{(Self,Hunger,0), (Self,Energy,100)} and actions {EatMeal, Rest}, the
planner returns the plan [Rest, EatMeal], yet executing that plan's
declared effects in order leaves the goal condition (Self,Energy,100)
unsatisfied (EatMeal's Energy-50 side effect replaces Rest's Energy 100,
Energy being functional). -/
theorem c2_counterexample :
    regressive_plan (fun _ => 0) MindGraph.default cexGoal [cexA1, cexA2]
        = some [cexA2, cexA1] ∧
      gE ∈ cexGoal.conditions ∧
      mind_satisfies_pattern
        (execPlan MindGraph.default [cexA2, cexA1]) gE = false := by
  decide

/-! ## Claim C6: empty plan iff goal already satisfied; cap yields none

Helper lemmas about the search containers, shared with the C2
development. -/

theorem popMin_mem : ∀ {l : List SearchNode} {m : SearchNode}
    {rest : List SearchNode}, popMin l = some (m, rest) →
    m ∈ l ∧ ∀ x ∈ rest, x ∈ l := by
  intro l
  induction l with
  | nil => intro m rest h; simp [popMin] at h
  | cons x xs ih =>
    intro m rest h
    rw [popMin] at h
    cases hxs : popMin xs with
    | none =>
      rw [hxs] at h
      dsimp only at h
      cases h
      exact ⟨List.mem_cons_self .., by intro y hy; cases hy⟩
    | some p =>
      obtain ⟨m', rest'⟩ := p
      obtain ⟨hm', hrest'⟩ := ih hxs
      rw [hxs] at h
      dsimp only at h
      by_cases hle : x.1 ≤ m'.1
      · rw [if_pos hle] at h
        cases h
        exact ⟨List.mem_cons_self .., fun y hy => List.mem_cons_of_mem _ hy⟩
      · rw [if_neg hle] at h
        cases h
        refine ⟨List.mem_cons_of_mem _ hm', ?_⟩
        intro y hy
        rcases List.mem_cons.1 hy with h1 | h1
        · exact h1 ▸ List.mem_cons_self ..
        · exact List.mem_cons_of_mem _ (hrest' y h1)

theorem hmGet_nil {K V : Type} [DecidableEq K] (k : K) :
    hmGet ([] : List (K × V)) k = none := rfl

theorem hmGet_mem {K V : Type} [DecidableEq K] {m : List (K × V)} {k : K}
    {v : V} (h : hmGet m k = some v) : (k, v) ∈ m := by
  unfold hmGet at h
  cases hf : m.find? fun e => e.1 = k with
  | none => rw [hf] at h; cases h
  | some e =>
    rw [hf] at h
    have he : e ∈ m := List.mem_of_find?_eq_some hf
    have hk : e.1 = k := by
      have := List.find?_some hf
      exact of_decide_eq_true this
    have hv : e.2 = v := by cases h; rfl
    have : e = (k, v) := by
      obtain ⟨a, b⟩ := e
      simp only at hk hv
      rw [hk, hv]
    rwa [this] at he

theorem hmGet_cons_eq {K V : Type} [DecidableEq K] (e : K × V)
    (m : List (K × V)) (k' : K) (h : e.1 = k') :
    hmGet (e :: m) k' = some e.2 := by
  simp only [hmGet, List.find?_cons, decide_eq_true h]
  rfl

theorem hmGet_cons_ne {K V : Type} [DecidableEq K] (e : K × V)
    (m : List (K × V)) (k' : K) (h : ¬(e.1 = k')) :
    hmGet (e :: m) k' = hmGet m k' := by
  simp only [hmGet, List.find?_cons, decide_eq_false h]

theorem hmErase_cons_eq {K V : Type} [DecidableEq K] (e : K × V)
    (m : List (K × V)) (k : K) (h : e.1 = k) :
    hmErase (e :: m) k = hmErase m k := by
  simp [hmErase, List.filter, h]

theorem hmErase_cons_ne {K V : Type} [DecidableEq K] (e : K × V)
    (m : List (K × V)) (k : K) (h : ¬(e.1 = k)) :
    hmErase (e :: m) k = e :: hmErase m k := by
  simp [hmErase, List.filter, h]

theorem hmGet_erase_ne {K V : Type} [DecidableEq K] (m : List (K × V))
    (k k' : K) (h : k' ≠ k) : hmGet (hmErase m k) k' = hmGet m k' := by
  induction m with
  | nil => rfl
  | cons e m ih =>
    by_cases hek : e.1 = k
    · rw [hmErase_cons_eq e m k hek, ih,
        hmGet_cons_ne e m k' fun hc => h (by rw [← hc, hek])]
    · by_cases hek' : e.1 = k'
      · rw [hmErase_cons_ne e m k hek, hmGet_cons_eq e _ k' hek',
          hmGet_cons_eq e m k' hek']
      · rw [hmErase_cons_ne e m k hek, hmGet_cons_ne e _ k' hek',
          hmGet_cons_ne e m k' hek', ih]

theorem hmGet_insert_self {K V : Type} [DecidableEq K] (m : List (K × V))
    (k : K) (v : V) : hmGet (hmInsert m k v) k = some v := by
  rw [hmInsert, hmGet_cons_eq _ _ _ rfl]

theorem hmGet_insert_ne {K V : Type} [DecidableEq K] (m : List (K × V))
    (k k' : K) (v : V) (h : k' ≠ k) :
    hmGet (hmInsert m k v) k' = hmGet m k' := by
  rw [hmInsert, hmGet_cons_ne _ _ _ fun hc => h (Eq.symm hc),
    hmGet_erase_ne m k k' h]

theorem hmGet_isSome_insert {K V : Type} [DecidableEq K] (m : List (K × V))
    (k k' : K) (v : V) (h : (hmGet m k').isSome) :
    (hmGet (hmInsert m k v) k').isSome := by
  by_cases hk : k' = k
  · rw [hk, hmGet_insert_self]; rfl
  · rw [hmGet_insert_ne m k k' v hk]; exact h

/-! Step equations of `planLoop`, one per branch of the loop body. -/

theorem planLoop_zero (sq : ℚ → ℚ) (mind : MindGraph)
    (avail : List ActionTemplate) (openSet : List SearchNode)
    (cf : CameFrom) (gs : GScore) :
    planLoop sq mind avail 0 openSet cf gs = none := by
  rw [planLoop.eq_def]
  dsimp only
  cases hpop : popMin openSet with
  | none => rfl
  | some pr => obtain ⟨node, rest⟩ := pr; rfl

theorem planLoop_pop_none (sq : ℚ → ℚ) (mind : MindGraph)
    (avail : List ActionTemplate) (fuel : Nat) (openSet : List SearchNode)
    (cf : CameFrom) (gs : GScore) (h : popMin openSet = none) :
    planLoop sq mind avail fuel openSet cf gs = none := by
  rw [planLoop.eq_def]
  dsimp only
  rw [h]

theorem planLoop_succ_done (sq : ℚ → ℚ) (mind : MindGraph)
    (avail : List ActionTemplate) (f : Nat) (openSet : List SearchNode)
    (cf : CameFrom) (gs : GScore) (node : SearchNode)
    (rest : List SearchNode) (h : popMin openSet = some (node, rest))
    (h2 : node.2 = []) :
    planLoop sq mind avail (f + 1) openSet cf gs =
      some (reconstruct_regressive_path cf []) := by
  rw [planLoop.eq_def]
  dsimp only
  rw [h]
  dsimp only
  rw [h2]

theorem planLoop_succ_skip (sq : ℚ → ℚ) (mind : MindGraph)
    (avail : List ActionTemplate) (f : Nat) (openSet : List SearchNode)
    (cf : CameFrom) (gs : GScore) (node : SearchNode)
    (rest : List SearchNode) (target : TriplePattern)
    (remaining : List TriplePattern)
    (h : popMin openSet = some (node, rest))
    (h2 : node.2 = target :: remaining)
    (h3 : hmGet gs (target :: remaining) = none) :
    planLoop sq mind avail (f + 1) openSet cf gs =
      planLoop sq mind avail f rest cf gs := by
  rw [planLoop.eq_def]
  dsimp only
  rw [h]
  dsimp only
  rw [h2]
  dsimp only
  rw [h3]

theorem planLoop_succ_exp (sq : ℚ → ℚ) (mind : MindGraph)
    (avail : List ActionTemplate) (f : Nat) (openSet : List SearchNode)
    (cf : CameFrom) (gs : GScore) (node : SearchNode)
    (rest : List SearchNode) (target : TriplePattern)
    (remaining : List TriplePattern) (curG : ℚ)
    (h : popMin openSet = some (node, rest))
    (h2 : node.2 = target :: remaining)
    (h3 : hmGet gs (target :: remaining) = some curG) :
    planLoop sq mind avail (f + 1) openSet cf gs =
      planLoop sq mind avail f
        (expandWalk sq mind (target :: remaining) target remaining curG
          (expandExplicit mind avail (target :: remaining) target remaining
            curG (rest, cf, gs))).1
        (expandWalk sq mind (target :: remaining) target remaining curG
          (expandExplicit mind avail (target :: remaining) target remaining
            curG (rest, cf, gs))).2.1
        (expandWalk sq mind (target :: remaining) target remaining curG
          (expandExplicit mind avail (target :: remaining) target remaining
            curG (rest, cf, gs))).2.2 := by
  rw [planLoop.eq_def]
  dsimp only
  rw [h]
  dsimp only
  rw [h2]
  dsimp only
  rw [h3]

/-- Every open node's state is the start state or has a `came_from`
entry. -/
def OpenGood (start : List TriplePattern) (openSet : List SearchNode)
    (cf : CameFrom) : Prop :=
  ∀ n ∈ openSet, n.2 = start ∨ (hmGet cf n.2).isSome

theorem tryEdge_openGood (start : List TriplePattern)
    (cur : List TriplePattern) (action : ActionTemplate)
    (next : List TriplePattern) (c : ℚ)
    (acc : List SearchNode × CameFrom × GScore)
    (h : OpenGood start acc.1 acc.2.1) :
    OpenGood start (tryEdge cur action next c acc).1
      (tryEdge cur action next c acc).2.1 := by
  unfold tryEdge
  split
  · intro n hn
    rcases List.mem_cons.1 hn with h1 | h1
    · right
      rw [h1]
      rw [hmGet_insert_self]
      rfl
    · rcases h n h1 with h2 | h2
      · exact Or.inl h2
      · exact Or.inr (hmGet_isSome_insert _ _ _ _ h2)
  · exact h

theorem expandExplicit_preserved
    {P : List SearchNode × CameFrom × GScore → Prop}
    (mind : MindGraph) (avail : List ActionTemplate)
    (cur : List TriplePattern) (target : TriplePattern)
    (remaining : List TriplePattern) (curG : ℚ)
    (acc : List SearchNode × CameFrom × GScore)
    (hstep : ∀ (action : ActionTemplate) (next : List TriplePattern)
      (c : ℚ) (acc : List SearchNode × CameFrom × GScore),
      action ∈ avail → action_satisfies_pattern action target = true →
      P acc → P (tryEdge cur action next c acc))
    (h : P acc) :
    P (expandExplicit mind avail cur target remaining curG acc) := by
  unfold expandExplicit
  have main : ∀ (l : List ActionTemplate), (∀ a ∈ l, a ∈ avail) →
      ∀ acc, P acc → P (l.foldl
        (fun acc action =>
          if action_satisfies_pattern action target then
            tryEdge cur action (normalizeState (remaining ++
              action.preconditions.filter
                fun pre => !(mind_satisfies_pattern mind pre)))
              (curG + action.base_cost) acc
          else acc) acc) := by
    intro l
    induction l with
    | nil => intro _ acc h; exact h
    | cons a l ih =>
      intro hsub acc h
      rw [List.foldl_cons]
      refine ih (fun x hx => hsub x (List.mem_cons_of_mem _ hx)) _ ?_
      by_cases hsat : action_satisfies_pattern a target = true
      · rw [if_pos hsat]
        exact hstep a _ _ acc (hsub a (List.mem_cons_self ..)) hsat h
      · rw [if_neg hsat]
        exact h
  exact main avail (fun a ha => ha) acc h

theorem expandWalk_preserved
    {P : List SearchNode × CameFrom × GScore → Prop}
    (sq : ℚ → ℚ) (mind : MindGraph) (cur : List TriplePattern)
    (target : TriplePattern) (remaining : List TriplePattern) (curG : ℚ)
    (acc : List SearchNode × CameFrom × GScore)
    (hstep : ∀ (action : ActionTemplate) (next : List TriplePattern)
      (c : ℚ) (acc : List SearchNode × CameFrom × GScore),
      P acc → P (tryEdge cur action next c acc))
    (h : P acc) :
    P (expandWalk sq mind cur target remaining curG acc) := by
  obtain ⟨ts, tp, to_⟩ := target
  unfold expandWalk
  dsimp only
  cases tp with
  | none => exact h
  | some p =>
    cases p <;> try exact h
    cases ts with
    | none => exact h
    | some s =>
      cases s <;> try exact h
      dsimp only
      cases to_ with
      | none => exact h
      | some v =>
        cases v <;> try exact h
        case tile t =>
          dsimp only
          cases hg : mind.get .Self_ .LocatedAt with
          | none => exact h
          | some val =>
            cases val <;> try exact h
            exact hstep _ _ _ _ h
        case entity e =>
          dsimp only
          cases hg1 : mind.get (.entity e) .LocatedAt with
          | none => exact h
          | some val =>
            cases val <;> try exact h
            case tile t =>
              dsimp only
              cases hg2 : mind.get .Self_ .LocatedAt with
              | none => exact h
              | some val2 =>
                cases val2 <;> try exact h
                exact hstep _ _ _ _ h

theorem reconstruct_ne_nil (cf : CameFrom) (cur : List TriplePattern)
    (h : (hmGet cf cur).isSome) :
    reconstruct_regressive_path cf cur ≠ [] := by
  obtain ⟨⟨a, p⟩, hv⟩ := Option.isSome_iff_exists.1 h
  have hmem : (cur, (a, p)) ∈ cf := hmGet_mem hv
  unfold reconstruct_regressive_path
  cases cf with
  | nil => cases hmem
  | cons e l =>
    show reconstructAux (l.length + 1) (e :: l) cur ≠ []
    rw [reconstructAux.eq_def]
    dsimp only
    rw [hv]
    simp

theorem planLoop_ne_some_nil (sq : ℚ → ℚ) (mind : MindGraph)
    (avail : List ActionTemplate) (start : List TriplePattern)
    (hstart : start ≠ []) :
    ∀ (fuel : Nat) (openSet : List SearchNode) (cf : CameFrom)
      (gs : GScore), OpenGood start openSet cf →
      planLoop sq mind avail fuel openSet cf gs ≠ some [] := by
  intro fuel
  induction fuel with
  | zero =>
    intro openSet cf gs _hog
    rw [planLoop_zero]
    exact fun hc => Option.noConfusion hc
  | succ f ih =>
    intro openSet cf gs hog
    cases hpop : popMin openSet with
    | none =>
      rw [planLoop_pop_none sq mind avail _ _ _ _ hpop]
      exact fun hc => Option.noConfusion hc
    | some pr =>
      obtain ⟨node, rest⟩ := pr
      obtain ⟨hnode, hrest⟩ := popMin_mem hpop
      cases hn2 : node.2 with
      | nil =>
        rw [planLoop_succ_done sq mind avail f _ _ _ _ _ hpop hn2]
        rcases hog node hnode with h1 | h1
        · have : start = [] := by rw [← h1, hn2]
          exact absurd this hstart
        · have h1' : (hmGet cf []).isSome := by rw [← hn2]; exact h1
          intro hc
          exact reconstruct_ne_nil cf [] h1' (Option.some.inj hc)
      | cons target remaining =>
        cases hgs : hmGet gs (target :: remaining) with
        | none =>
          rw [planLoop_succ_skip sq mind avail f _ _ _ _ _ _ _ hpop hn2 hgs]
          exact ih rest cf gs fun n hn => hog n (hrest n hn)
        | some curG =>
          rw [planLoop_succ_exp sq mind avail f _ _ _ _ _ _ _ _
            hpop hn2 hgs]
          refine ih _ _ _ ?_
          have hbase : OpenGood start rest cf :=
            fun n hn => hog n (hrest n hn)
          exact expandWalk_preserved sq mind (target :: remaining) target
            remaining curG _
            (fun action next c acc hp => tryEdge_openGood start
              (target :: remaining) action next c acc hp)
            (expandExplicit_preserved mind avail (target :: remaining)
              target remaining curG (rest, cf, gs)
              (fun action next c acc _ _ hp => tryEdge_openGood start
                (target :: remaining) action next c acc hp)
              hbase)

/-- C6: `regressive_plan` returns the empty plan exactly when every goal
condition is already satisfied in the store at call time; and a search
whose iteration budget is exhausted returns `none` (no plan found) at the
next pop, whatever the open set, predecessor map and score map hold — the
cap terminates the search rather than blocking. -/
theorem c6_empty_plan_iff_satisfied_and_cap_none :
    (∀ (sq : ℚ → ℚ) (mind : MindGraph) (goal : Goal)
      (avail : List ActionTemplate),
      regressive_plan sq mind goal avail = some [] ↔
        ∀ p ∈ goal.conditions, mind_satisfies_pattern mind p = true) ∧
    (∀ (sq : ℚ → ℚ) (mind : MindGraph) (avail : List ActionTemplate)
      (openSet : List SearchNode) (cf : CameFrom) (gs : GScore),
      planLoop sq mind avail 0 openSet cf gs = none) := by
  constructor
  · intro sq mind goal avail
    constructor
    · intro hplan
      by_contra hns
      push_neg at hns
      obtain ⟨p, hp, hps⟩ := hns
      have hps' : mind_satisfies_pattern mind p = false := by
        cases hb : mind_satisfies_pattern mind p with
        | false => rfl
        | true => exact absurd hb hps
      have hmem : p ∈ goal.conditions.filter
          fun q => !(mind_satisfies_pattern mind q) := by
        rw [List.mem_filter]
        exact ⟨hp, by rw [hps']; rfl⟩
      have hne : goal.conditions.filter
          (fun q => !(mind_satisfies_pattern mind q)) ≠ [] := by
        intro hc
        rw [hc] at hmem
        cases hmem
      unfold regressive_plan at hplan
      rw [if_neg hne] at hplan
      have hstart : normalizeState (goal.conditions.filter
          fun q => !(mind_satisfies_pattern mind q)) ≠ [] := by
        intro hc
        have hperm := List.perm_insertionSort patternLe
          (goal.conditions.filter fun q => !(mind_satisfies_pattern mind q))
        rw [normalizeState] at hc
        rw [hc] at hperm
        exact hne hperm.symm.eq_nil
      exact absurd hplan (planLoop_ne_some_nil sq mind avail _ hstart _ _ _ _
        (fun n hn => by
          rcases List.mem_cons.1 hn with h1 | h1
          · exact Or.inl (by rw [h1])
          · cases h1))
    · intro hsat
      unfold regressive_plan
      rw [if_pos]
      rw [List.filter_eq_nil_iff]
      intro p hp
      rw [hsat p hp]
      simp
  · intro sq mind avail openSet cf gs
    exact planLoop_zero sq mind avail openSet cf gs

/-! ## Claim C2: the search invariant behind conditional soundness

The counterexample above shows the returned plan need not achieve the
goal, because the regression step never checks that an action's *other*
effects do not clobber a remaining goal.  The amended claim is soundness
under explicit no-clobber hypotheses: every available action's effects
achieve the patterns they match and never unsatisfy a goal or
precondition pattern, action costs are positive, and no goal or
precondition pattern is a (Self, LocatedAt, _) pattern (so the implicit
Walk rule, whose entity-object branch is unsound even in this sense,
never fires). -/

/-- Every pattern the search can ever place in a state: the goal
conditions and all available preconditions. -/
def Closure (goal : Goal) (avail : List ActionTemplate) :
    List TriplePattern :=
  goal.conditions ++ avail.flatMap (·.preconditions)

/-- All patterns of `s` hold in `m`. -/
def SatM (m : MindGraph) (s : List TriplePattern) : Prop :=
  ∀ p ∈ s, mind_satisfies_pattern m p = true

/-- The full search invariant of the regressive A* loop. -/
structure MasterInv (goal : Goal) (avail : List ActionTemplate)
    (start : List TriplePattern) (openSet : List SearchNode)
    (cf : CameFrom) (gs : GScore) : Prop where
  openGood : OpenGood start openSet cf
  openClos : ∀ n ∈ openSet, ∀ p ∈ n.2, p ∈ Closure goal avail
  edgesValid : ∀ e ∈ cf, e.2.1 ∈ avail ∧
    ∃ target remaining, e.2.2 = target :: remaining ∧
      action_satisfies_pattern e.2.1 target = true ∧
      ∀ p ∈ remaining, p ∈ e.1
  edgesClos : ∀ e ∈ cf, ∀ p ∈ e.2.2, p ∈ Closure goal avail
  edgesParent : ∀ e ∈ cf, e.2.2 = start ∨ (hmGet cf e.2.2).isSome
  gsNonneg : ∀ x ∈ gs, 0 ≤ x.2
  gsStart : hmGet gs start = some 0
  cfStart : hmGet cf start = none
  invG : ∀ e ∈ cf, ∃ gc gp, hmGet gs e.1 = some gc ∧
    hmGet gs e.2.2 = some gp ∧ gp < gc

theorem hmGet_erase_self {K V : Type} [DecidableEq K] (m : List (K × V))
    (k : K) : hmGet (hmErase m k) k = none := by
  unfold hmGet hmErase
  rw [List.find?_eq_none.2]
  · rfl
  · intro e he hc
    have h1 := (List.mem_filter.1 he).2
    have h2 : e.1 = k := of_decide_eq_true hc
    rw [h2] at h1
    simp at h1

theorem length_filter_lt {α : Type} (p : α → Bool) (l : List α) (a : α)
    (ha : a ∈ l) (hpa : p a = false) : (l.filter p).length < l.length := by
  induction l with
  | nil => cases ha
  | cons x xs ih =>
    rcases List.mem_cons.1 ha with h1 | h1
    · have hpx : p x = false := by rw [← h1]; exact hpa
      rw [List.filter_cons, hpx]
      rw [if_neg (by simp)]
      calc (xs.filter p).length ≤ xs.length := List.length_filter_le p xs
        _ < (x :: xs).length := by simp
    · rw [List.filter_cons]
      cases hx : p x with
      | true =>
        rw [if_pos rfl]
        simp only [List.length_cons]
        exact Nat.succ_lt_succ (ih h1)
      | false =>
        rw [if_neg (by simp)]
        calc (xs.filter p).length < xs.length := ih h1
          _ < (x :: xs).length := by simp
      
theorem hmErase_length_lt {K V : Type} [DecidableEq K] (m : List (K × V))
    (k : K) (h : (hmGet m k).isSome) :
    (hmErase m k).length < m.length := by
  obtain ⟨v, hv⟩ := Option.isSome_iff_exists.1 h
  refine length_filter_lt _ m (k, v) (hmGet_mem hv) ?_
  simp

/-- The implicit-movement expansion is a no-op unless the target is a
(Self, LocatedAt, _) pattern. -/
theorem expandWalk_noop (sq : ℚ → ℚ) (mind : MindGraph)
    (cur : List TriplePattern) (target : TriplePattern)
    (remaining : List TriplePattern) (curG : ℚ)
    (acc : List SearchNode × CameFrom × GScore)
    (h : ¬(target.subject = some Node.Self_ ∧
      target.predicate = some Predicate.LocatedAt)) :
    expandWalk sq mind cur target remaining curG acc = acc := by
  obtain ⟨ts, tp, to_⟩ := target
  unfold expandWalk
  dsimp only at h ⊢
  cases tp with
  | none => rfl
  | some p =>
    cases p <;> try rfl
    cases ts with
    | none => rfl
    | some s =>
      cases s <;> try rfl
      exact absurd ⟨rfl, rfl⟩ h

/-- `expandExplicit` preservation, handing the step the exact next state
and cost the loop body builds. -/
theorem expandExplicit_preserved2
    {P : List SearchNode × CameFrom × GScore → Prop}
    (mind : MindGraph) (avail : List ActionTemplate)
    (cur : List TriplePattern) (target : TriplePattern)
    (remaining : List TriplePattern) (curG : ℚ)
    (acc : List SearchNode × CameFrom × GScore)
    (hstep : ∀ (action : ActionTemplate)
      (acc : List SearchNode × CameFrom × GScore),
      action ∈ avail → action_satisfies_pattern action target = true →
      P acc → P (tryEdge cur action
        (normalizeState (remaining ++ action.preconditions.filter
          fun pre => !(mind_satisfies_pattern mind pre)))
        (curG + action.base_cost) acc))
    (h : P acc) :
    P (expandExplicit mind avail cur target remaining curG acc) := by
  unfold expandExplicit
  have main : ∀ (l : List ActionTemplate), (∀ a ∈ l, a ∈ avail) →
      ∀ acc, P acc → P (l.foldl
        (fun acc action =>
          if action_satisfies_pattern action target then
            tryEdge cur action (normalizeState (remaining ++
              action.preconditions.filter
                fun pre => !(mind_satisfies_pattern mind pre)))
              (curG + action.base_cost) acc
          else acc) acc) := by
    intro l
    induction l with
    | nil => intro _ acc h; exact h
    | cons a l ih =>
      intro hsub acc h
      rw [List.foldl_cons]
      refine ih (fun x hx => hsub x (List.mem_cons_of_mem _ hx)) _ ?_
      by_cases hsat : action_satisfies_pattern a target = true
      · rw [if_pos hsat]
        exact hstep a acc (hsub a (List.mem_cons_self ..)) hsat h
      · rw [if_neg hsat]
        exact h
  exact main avail (fun a ha => ha) acc h

theorem mem_hmInsert {K V : Type} [DecidableEq K] {e : K × V}
    {m : List (K × V)} {k : K} {v : V} (h : e ∈ hmInsert m k v) :
    e = (k, v) ∨ (e ∈ m ∧ ¬(e.1 = k)) := by
  rcases List.mem_cons.1 h with h1 | h1
  · exact Or.inl h1
  · have h2 := List.mem_filter.1 h1
    exact Or.inr ⟨h2.1, by simpa using h2.2⟩

theorem tryEdge_masterInv (goal : Goal) (avail : List ActionTemplate)
    (start : List TriplePattern) (target : TriplePattern)
    (remaining : List TriplePattern) (curG : ℚ)
    (action : ActionTemplate) (next : List TriplePattern) (c : ℚ)
    (acc : List SearchNode × CameFrom × GScore)
    (inv : MasterInv goal avail start acc.1 acc.2.1 acc.2.2)
    (hcg : target :: remaining = start ∨
      (hmGet acc.2.1 (target :: remaining)).isSome)
    (hcc : ∀ p ∈ target :: remaining, p ∈ Closure goal avail)
    (ha : action ∈ avail)
    (hsat : action_satisfies_pattern action target = true)
    (hsub : ∀ p ∈ remaining, p ∈ next)
    (hnc : ∀ p ∈ next, p ∈ Closure goal avail)
    (hG : hmGet acc.2.2 (target :: remaining) = some curG)
    (hlt : curG < c) :
    MasterInv goal avail start
        (tryEdge (target :: remaining) action next c acc).1
        (tryEdge (target :: remaining) action next c acc).2.1
        (tryEdge (target :: remaining) action next c acc).2.2 ∧
      hmGet (tryEdge (target :: remaining) action next c acc).2.2
        (target :: remaining) = some curG ∧
      (target :: remaining = start ∨
        (hmGet (tryEdge (target :: remaining) action next c acc).2.1
          (target :: remaining)).isSome) := by
  unfold tryEdge
  split
  case isFalse hfire => exact ⟨inv, hG, hcg⟩
  case isTrue hfire =>
    have h0curG : 0 ≤ curG := inv.gsNonneg _ (hmGet_mem hG)
    have hnext_ne_cur : next ≠ target :: remaining := by
      intro hc
      rw [hc, hG] at hfire
      have hclt : c < curG := of_decide_eq_true (by simpa [infLt] using hfire)
      exact absurd hclt (not_lt.2 (le_of_lt hlt))
    have hnext_ne_start : next ≠ start := by
      intro hc
      rw [hc, inv.gsStart] at hfire
      have hclt : c < 0 := of_decide_eq_true (by simpa [infLt] using hfire)
      exact absurd hclt (not_lt.2 (le_of_lt (lt_of_le_of_lt h0curG hlt)))
    have hcur_ne_next : (target :: remaining) ≠ next :=
      fun hc => hnext_ne_cur hc.symm
    have hstart_ne_next : start ≠ next := fun hc => hnext_ne_start hc.symm
    have hgs_cur : hmGet (hmInsert acc.2.2 next c) (target :: remaining)
        = some curG := by
      rw [hmGet_insert_ne _ _ _ _ hcur_ne_next]
      exact hG
    dsimp only
    refine ⟨?_, hgs_cur, ?_⟩
    · refine
        { openGood := ?_, openClos := ?_, edgesValid := ?_,
          edgesClos := ?_, edgesParent := ?_, gsNonneg := ?_,
          gsStart := ?_, cfStart := ?_, invG := ?_ }
      · intro n hn
        rcases List.mem_cons.1 hn with h1 | h1
        · right
          rw [h1]
          rw [hmGet_insert_self]
          rfl
        · rcases inv.openGood n h1 with h2 | h2
          · exact Or.inl h2
          · exact Or.inr (hmGet_isSome_insert _ _ _ _ h2)
      · intro n hn
        rcases List.mem_cons.1 hn with h1 | h1
        · rw [h1]; exact hnc
        · exact inv.openClos n h1
      · intro e he
        rcases mem_hmInsert he with h1 | h1
        · rw [h1]
          exact ⟨ha, target, remaining, rfl, hsat, hsub⟩
        · exact inv.edgesValid e h1.1
      · intro e he
        rcases mem_hmInsert he with h1 | h1
        · rw [h1]; exact hcc
        · exact inv.edgesClos e h1.1
      · intro e he
        rcases mem_hmInsert he with h1 | h1
        · rw [h1]
          rcases hcg with h2 | h2
          · exact Or.inl h2
          · exact Or.inr (hmGet_isSome_insert _ _ _ _ h2)
        · rcases inv.edgesParent e h1.1 with h2 | h2
          · exact Or.inl h2
          · exact Or.inr (hmGet_isSome_insert _ _ _ _ h2)
      · intro x hx
        rcases mem_hmInsert hx with h1 | h1
        · rw [h1]
          exact le_of_lt (lt_of_le_of_lt h0curG hlt)
        · exact inv.gsNonneg x h1.1
      · rw [hmGet_insert_ne _ _ _ _ hstart_ne_next]
        exact inv.gsStart
      · rw [hmGet_insert_ne _ _ _ _ hstart_ne_next]
        exact inv.cfStart
      · intro e he
        rcases mem_hmInsert he with h1 | h1
        · refine ⟨c, curG, ?_, ?_, hlt⟩
          · rw [h1]
            exact hmGet_insert_self _ _ _
          · rw [h1]
            exact hgs_cur
        · obtain ⟨gc, gp, hgc, hgp, hlt'⟩ := inv.invG e h1.1
          refine ⟨gc, ?_⟩
          have hgc' : hmGet (hmInsert acc.2.2 next c) e.1 = some gc := by
            rw [hmGet_insert_ne _ _ _ _ h1.2]
            exact hgc
          by_cases hpn : e.2.2 = next
          · refine ⟨c, hgc', ?_, ?_⟩
            · rw [hpn]
              exact hmGet_insert_self _ _ _
            · rw [hpn] at hgp
              rw [hgp] at hfire
              have hclt : c < gp :=
                of_decide_eq_true (by simpa [infLt] using hfire)
              exact lt_trans hclt hlt'
          · refine ⟨gp, hgc', ?_, hlt'⟩
            rw [hmGet_insert_ne _ _ _ _ hpn]
            exact hgp
    · rcases hcg with h2 | h2
      · exact Or.inl h2
      · exact Or.inr (hmGet_isSome_insert _ _ _ _ h2)

theorem execPlan_cons (M : MindGraph) (a : ActionTemplate)
    (l : List ActionTemplate) :
    execPlan M (a :: l) = execPlan (applyEffects M a) l := rfl

theorem reconstructAux_zero (cf : CameFrom) (cur : List TriplePattern) :
    reconstructAux 0 cf cur = [] := rfl

theorem reconstructAux_succ_none (n : Nat) (cf : CameFrom)
    (cur : List TriplePattern) (h : hmGet cf cur = none) :
    reconstructAux (n + 1) cf cur = [] := by
  rw [reconstructAux.eq_def]
  dsimp only
  rw [h]

theorem reconstructAux_succ_some (n : Nat) (cf : CameFrom)
    (cur : List TriplePattern) (a : ActionTemplate)
    (p : List TriplePattern) (h : hmGet cf cur = some (a, p)) :
    reconstructAux (n + 1) cf cur =
      a :: reconstructAux n (hmErase cf cur) p := by
  rw [reconstructAux.eq_def]
  dsimp only
  rw [h]

theorem reconstructAux_sound (goal : Goal) (avail : List ActionTemplate)
    (start : List TriplePattern) (cf : CameFrom) (gs : GScore)
    (Hach : ∀ a ∈ avail, ∀ pat, action_satisfies_pattern a pat = true →
      ∀ M, mind_satisfies_pattern (applyEffects M a) pat = true)
    (Hpres : ∀ a ∈ avail, ∀ pat ∈ Closure goal avail, ∀ M,
      mind_satisfies_pattern M pat = true →
      mind_satisfies_pattern (applyEffects M a) pat = true)
    (EV : ∀ e ∈ cf, e.2.1 ∈ avail ∧ ∃ target remaining,
      e.2.2 = target :: remaining ∧
      action_satisfies_pattern e.2.1 target = true ∧
      ∀ p ∈ remaining, p ∈ e.1)
    (EC : ∀ e ∈ cf, ∀ p ∈ e.2.2, p ∈ Closure goal avail)
    (EP : ∀ e ∈ cf, e.2.2 = start ∨ (hmGet cf e.2.2).isSome)
    (IG : ∀ e ∈ cf, ∃ gc gp, hmGet gs e.1 = some gc ∧
      hmGet gs e.2.2 = some gp ∧ gp < gc) :
    ∀ (fuel : Nat) (cf' : CameFrom) (cur : List TriplePattern) (gcur : ℚ),
      (∀ k v, hmGet cf' k = some v → hmGet cf k = some v) →
      cf'.length ≤ fuel →
      hmGet gs cur = some gcur →
      (cur = start ∨ (hmGet cf' cur).isSome) →
      (∀ k, (hmGet cf k).isSome → hmGet cf' k = none →
        ∃ gk, hmGet gs k = some gk ∧ gcur < gk) →
      (∀ a ∈ reconstructAux fuel cf' cur, a ∈ avail) ∧
      ∀ M, SatM M cur → SatM (execPlan M (reconstructAux fuel cf' cur))
        start := by
  intro fuel
  induction fuel with
  | zero =>
    intro cf' cur gcur hsub hlen hgcur hdisj hthr
    have hcf' : cf' = [] := List.length_eq_zero.1 (Nat.le_zero.1 hlen)
    subst hcf'
    have hcur : cur = start := by
      rcases hdisj with h | h
      · exact h
      · rw [hmGet_nil] at h; cases h
    rw [reconstructAux_zero]
    constructor
    · intro a ha; cases ha
    · intro M hM
      rw [hcur] at hM
      exact hM
  | succ n ih =>
    intro cf' cur gcur hsub hlen hgcur hdisj hthr
    cases hcv : hmGet cf' cur with
    | none =>
      have hcur : cur = start := by
        rcases hdisj with h | h
        · exact h
        · rw [hcv] at h; cases h
      rw [reconstructAux_succ_none n cf' cur hcv]
      constructor
      · intro a ha; cases ha
      · intro M hM
        rw [hcur] at hM
        exact hM
    | some ap =>
      obtain ⟨a, p⟩ := ap
      rw [reconstructAux_succ_some n cf' cur a p hcv]
      have hcf : hmGet cf cur = some (a, p) := hsub _ _ hcv
      have hmem : (cur, (a, p)) ∈ cf := hmGet_mem hcf
      obtain ⟨hav, target, remaining, hp, hsat, hrem⟩ := EV _ hmem
      obtain ⟨gc, gp, hgc, hgp, hlt⟩ := IG _ hmem
      dsimp only at hav hp hsat hrem hgc hgp
      have hgceq : gc = gcur := by
        rw [hgcur] at hgc
        exact (Option.some.inj hgc).symm
      subst hgceq
      have hsub' : ∀ k v, hmGet (hmErase cf' cur) k = some v →
          hmGet cf k = some v := by
        intro k v hk
        by_cases hkc : k = cur
        · rw [hkc, hmGet_erase_self] at hk; cases hk
        · rw [hmGet_erase_ne cf' cur k hkc] at hk
          exact hsub k v hk
      have hlen' : (hmErase cf' cur).length ≤ n := by
        have hl := hmErase_length_lt cf' cur (by rw [hcv]; rfl)
        omega
      have hdisj' : p = start ∨ (hmGet (hmErase cf' cur) p).isSome := by
        rcases EP _ hmem with h | h
        · exact Or.inl h
        · right
          by_cases hpc : p = cur
          · exfalso
            rw [hpc, hgcur] at hgp
            have hpe : gc = gp := Option.some.inj hgp
            rw [hpe] at hlt
            exact lt_irrefl _ hlt
          · rw [hmGet_erase_ne cf' cur p hpc]
            cases hcp : hmGet cf' p with
            | some w => rfl
            | none =>
              exfalso
              obtain ⟨gk, hgk, hgklt⟩ := hthr p h hcp
              rw [hgp] at hgk
              have hpe : gp = gk := Option.some.inj hgk
              rw [← hpe] at hgklt
              exact absurd hgklt (not_lt.2 (le_of_lt hlt))
      have hthr' : ∀ k, (hmGet cf k).isSome →
          hmGet (hmErase cf' cur) k = none →
          ∃ gk, hmGet gs k = some gk ∧ gp < gk := by
        intro k hk hk'
        by_cases hkc : k = cur
        · exact ⟨gc, by rw [hkc]; exact hgcur, hlt⟩
        · rw [hmGet_erase_ne cf' cur k hkc] at hk'
          obtain ⟨gk, hgk, hgklt⟩ := hthr k hk hk'
          exact ⟨gk, hgk, lt_trans hlt hgklt⟩
      obtain ⟨ihav, ihsound⟩ :=
        ih (hmErase cf' cur) p gp hsub' hlen' hgp hdisj' hthr'
      constructor
      · intro x hx
        rcases List.mem_cons.1 hx with h1 | h1
        · rw [h1]; exact hav
        · exact ihav x h1
      · intro M hM
        rw [execPlan_cons]
        refine ihsound (applyEffects M a) ?_
        rw [hp]
        intro q hq
        rcases List.mem_cons.1 hq with h1 | h1
        · rw [h1]
          exact Hach a hav target hsat M
        · have hqcur : q ∈ cur := hrem q h1
          have hqclos : q ∈ Closure goal avail :=
            EC _ hmem q (by rw [hp]; exact List.mem_cons_of_mem _ h1)
          exact Hpres a hav q hqclos M (hM q hqcur)

theorem planLoop_sound (sq : ℚ → ℚ) (mind : MindGraph) (goal : Goal)
    (avail : List ActionTemplate) (start : List TriplePattern)
    (Hpos : ∀ a ∈ avail, 0 < a.base_cost)
    (Hach : ∀ a ∈ avail, ∀ pat, action_satisfies_pattern a pat = true →
      ∀ M, mind_satisfies_pattern (applyEffects M a) pat = true)
    (Hpres : ∀ a ∈ avail, ∀ pat ∈ Closure goal avail, ∀ M,
      mind_satisfies_pattern M pat = true →
      mind_satisfies_pattern (applyEffects M a) pat = true)
    (Hnel : ∀ pat ∈ Closure goal avail,
      ¬(pat.subject = some Node.Self_ ∧
        pat.predicate = some Predicate.LocatedAt))
    (hstart : start ≠ []) :
    ∀ (fuel : Nat) (openSet : List SearchNode) (cf : CameFrom)
      (gs : GScore) (plan : List ActionTemplate),
      MasterInv goal avail start openSet cf gs →
      planLoop sq mind avail fuel openSet cf gs = some plan →
      (∀ a ∈ plan, a ∈ avail) ∧
      ∀ M, SatM (execPlan M plan) start := by
  intro fuel
  induction fuel with
  | zero =>
    intro openSet cf gs plan inv hplan
    rw [planLoop_zero] at hplan
    cases hplan
  | succ f ih =>
    intro openSet cf gs plan inv hplan
    cases hpop : popMin openSet with
    | none =>
      rw [planLoop_pop_none sq mind avail _ _ _ _ hpop] at hplan
      cases hplan
    | some pr =>
      obtain ⟨node, rest⟩ := pr
      obtain ⟨hnode, hrest⟩ := popMin_mem hpop
      cases hn2 : node.2 with
      | nil =>
        rw [planLoop_succ_done sq mind avail f _ _ _ _ _ hpop hn2] at hplan
        have hplan' : plan = reconstruct_regressive_path cf [] :=
          (Option.some.inj hplan).symm
        have hgood := inv.openGood node hnode
        rw [hn2] at hgood
        rcases hgood with h1 | h1
        · exact absurd h1.symm hstart
        · obtain ⟨⟨a0, p0⟩, hv0⟩ := Option.isSome_iff_exists.1 h1
          have hmem0 : (([] : List TriplePattern), (a0, p0)) ∈ cf :=
            hmGet_mem hv0
          obtain ⟨g0, gp0, hg0, _h1, _h2⟩ := inv.invG _ hmem0
          dsimp only at hg0
          have hres := reconstructAux_sound goal avail start cf gs Hach
            Hpres inv.edgesValid inv.edgesClos inv.edgesParent inv.invG
            cf.length cf [] g0 (fun k v hv => hv) (le_refl _) hg0
            (Or.inr h1) (fun k hk hk' => absurd hk (by rw [hk']; simp))
          rw [hplan']
          exact ⟨hres.1, fun M =>
            hres.2 M (fun q hq => absurd hq (List.not_mem_nil q))⟩
      | cons target remaining =>
        cases hgs : hmGet gs (target :: remaining) with
        | none =>
          rw [planLoop_succ_skip sq mind avail f _ _ _ _ _ _ _
            hpop hn2 hgs] at hplan
          refine ih rest cf gs plan ?_ hplan
          exact
            { openGood := fun n hn => inv.openGood n (hrest n hn)
              openClos := fun n hn => inv.openClos n (hrest n hn)
              edgesValid := inv.edgesValid
              edgesClos := inv.edgesClos
              edgesParent := inv.edgesParent
              gsNonneg := inv.gsNonneg
              gsStart := inv.gsStart
              cfStart := inv.cfStart
              invG := inv.invG }
        | some curG =>
          rw [planLoop_succ_exp sq mind avail f _ _ _ _ _ _ _ _
            hpop hn2 hgs] at hplan
          have hcurclos : ∀ p ∈ (target :: remaining),
              p ∈ Closure goal avail := by
            intro p hp
            refine inv.openClos node hnode p ?_
            rw [hn2]
            exact hp
          have hcg0 : (target :: remaining) = start ∨
              (hmGet cf (target :: remaining)).isSome := by
            have hg := inv.openGood node hnode
            rw [hn2] at hg
            exact hg
          have hinv0 : MasterInv goal avail start rest cf gs :=
            { openGood := fun n hn => inv.openGood n (hrest n hn)
              openClos := fun n hn => inv.openClos n (hrest n hn)
              edgesValid := inv.edgesValid
              edgesClos := inv.edgesClos
              edgesParent := inv.edgesParent
              gsNonneg := inv.gsNonneg
              gsStart := inv.gsStart
              cfStart := inv.cfStart
              invG := inv.invG }
          have hQexp := expandExplicit_preserved2
            (P := fun acc =>
              MasterInv goal avail start acc.1 acc.2.1 acc.2.2 ∧
              hmGet acc.2.2 (target :: remaining) = some curG ∧
              ((target :: remaining) = start ∨
                (hmGet acc.2.1 (target :: remaining)).isSome))
            mind avail (target :: remaining) target remaining curG
            (rest, cf, gs)
            (fun action acc hmem hsat hQ => by
              refine tryEdge_masterInv goal avail start target remaining
                curG action _ _ acc hQ.1 hQ.2.2 hcurclos hmem hsat
                ?_ ?_ hQ.2.1 ?_
              · intro p hp
                rw [normalizeState]
                exact ((List.perm_insertionSort patternLe _).mem_iff).2
                  (List.mem_append_left _ hp)
              · intro p hp
                rw [normalizeState] at hp
                have hmm := ((List.perm_insertionSort patternLe _).mem_iff).1
                  hp
                rcases List.mem_append.1 hmm with h1 | h1
                · exact hcurclos p (List.mem_cons_of_mem _ h1)
                · have hpre : p ∈ action.preconditions :=
                    (List.mem_filter.1 h1).1
                  rw [Closure]
                  exact List.mem_append_right _
                    (List.mem_flatMap.2 ⟨action, hmem, hpre⟩)
              · have hb := Hpos action hmem
                linarith)
            ⟨hinv0, hgs, hcg0⟩
          have hwn : expandWalk sq mind (target :: remaining) target
              remaining curG
              (expandExplicit mind avail (target :: remaining) target
                remaining curG (rest, cf, gs)) =
              expandExplicit mind avail (target :: remaining) target
                remaining curG (rest, cf, gs) :=
            expandWalk_noop sq mind _ target remaining curG _
              (Hnel target (hcurclos target (List.mem_cons_self ..)))
          rw [hwn] at hplan
          exact ih _ _ _ plan hQexp.1 hplan

theorem execPlan_preserves (goal : Goal) (avail : List ActionTemplate)
    (Hpres : ∀ a ∈ avail, ∀ pat ∈ Closure goal avail, ∀ M,
      mind_satisfies_pattern M pat = true →
      mind_satisfies_pattern (applyEffects M a) pat = true) :
    ∀ (plan : List ActionTemplate) (M : MindGraph) (p : TriplePattern),
      (∀ a ∈ plan, a ∈ avail) → p ∈ Closure goal avail →
      mind_satisfies_pattern M p = true →
      mind_satisfies_pattern (execPlan M plan) p = true := by
  intro plan
  induction plan with
  | nil => intro M p _ _ h; exact h
  | cons a l ih =>
    intro M p hav hc h
    rw [execPlan_cons]
    exact ih (applyEffects M a) p
      (fun x hx => hav x (List.mem_cons_of_mem _ hx)) hc
      (Hpres a (hav a (List.mem_cons_self ..)) p hc M h)

/-- C2 (amended): the returned plan is in forward execution order without
a final reverse, and executing it achieves the goal *provided* the
available actions cannot clobber each other: every action's effects,
asserted into any store, satisfy each pattern the action is matched
against and preserve the satisfaction of every goal/precondition pattern;
action costs are positive; and no goal or precondition pattern is a
(Self, LocatedAt, _) pattern, so the implicit Walk rule never fires. -/
theorem c2_plan_soundness (sq : ℚ → ℚ) (mind : MindGraph) (goal : Goal)
    (avail : List ActionTemplate) (plan : List ActionTemplate)
    (Hpos : ∀ a ∈ avail, 0 < a.base_cost)
    (Hach : ∀ a ∈ avail, ∀ pat, action_satisfies_pattern a pat = true →
      ∀ M, mind_satisfies_pattern (applyEffects M a) pat = true)
    (Hpres : ∀ a ∈ avail, ∀ pat ∈ Closure goal avail, ∀ M,
      mind_satisfies_pattern M pat = true →
      mind_satisfies_pattern (applyEffects M a) pat = true)
    (Hnel : ∀ pat ∈ Closure goal avail,
      ¬(pat.subject = some Node.Self_ ∧
        pat.predicate = some Predicate.LocatedAt))
    (hplan : regressive_plan sq mind goal avail = some plan) :
    ∀ p ∈ goal.conditions,
      mind_satisfies_pattern (execPlan mind plan) p = true := by
  unfold regressive_plan at hplan
  dsimp only at hplan
  by_cases hinit : goal.conditions.filter
      (fun p => !(mind_satisfies_pattern mind p)) = []
  · rw [if_pos hinit] at hplan
    have hpl : plan = [] := (Option.some.inj hplan).symm
    subst hpl
    intro p hp
    have h1 := List.filter_eq_nil_iff.1 hinit p hp
    show mind_satisfies_pattern mind p = true
    cases hb : mind_satisfies_pattern mind p with
    | true => rfl
    | false => exact absurd (by rw [hb]; rfl) h1
  · rw [if_neg hinit] at hplan
    have hperm := List.perm_insertionSort patternLe
      (goal.conditions.filter fun p => !(mind_satisfies_pattern mind p))
    have hstart : normalizeState (goal.conditions.filter
        fun p => !(mind_satisfies_pattern mind p)) ≠ [] := by
      intro hc
      rw [normalizeState] at hc
      rw [hc] at hperm
      exact hinit hperm.symm.eq_nil
    have hclos : ∀ p ∈ normalizeState (goal.conditions.filter
        fun p => !(mind_satisfies_pattern mind p)),
        p ∈ Closure goal avail := by
      intro p hp
      rw [normalizeState] at hp
      have hmm := hperm.mem_iff.1 hp
      exact List.mem_append_left _ (List.mem_filter.1 hmm).1
    have inv0 : MasterInv goal avail
        (normalizeState (goal.conditions.filter
          fun p => !(mind_satisfies_pattern mind p)))
        [(((normalizeState (goal.conditions.filter
            fun p => !(mind_satisfies_pattern mind p))).length : ℚ),
          normalizeState (goal.conditions.filter
            fun p => !(mind_satisfies_pattern mind p)))]
        []
        [(normalizeState (goal.conditions.filter
          fun p => !(mind_satisfies_pattern mind p)), 0)] :=
      { openGood := by
          intro n hn
          rcases List.mem_cons.1 hn with h1 | h1
          · exact Or.inl (by rw [h1])
          · cases h1
        openClos := by
          intro n hn
          rcases List.mem_cons.1 hn with h1 | h1
          · rw [h1]
            exact hclos
          · cases h1
        edgesValid := by intro e he; cases he
        edgesClos := by intro e he; cases he
        edgesParent := by intro e he; cases he
        gsNonneg := by
          intro x hx
          rcases List.mem_cons.1 hx with h1 | h1
          · rw [h1]
          · cases h1
        gsStart := hmGet_cons_eq _ _ _ rfl
        cfStart := rfl
        invG := by intro e he; cases he }
    obtain ⟨hav, hsound⟩ := planLoop_sound sq mind goal avail _ Hpos Hach
      Hpres Hnel hstart MAX_ITERATIONS _ _ _ plan inv0 hplan
    intro p hp
    by_cases hsat : mind_satisfies_pattern mind p = true
    · exact execPlan_preserves goal avail Hpres plan mind p hav
        (List.mem_append_left _ hp) hsat
    · have hps' : mind_satisfies_pattern mind p = false := by
        cases hb : mind_satisfies_pattern mind p with
        | false => rfl
        | true => exact absurd hb hsat
      have hmemf : p ∈ goal.conditions.filter
          (fun q => !(mind_satisfies_pattern mind q)) :=
        List.mem_filter.2 ⟨hp, by rw [hps']; rfl⟩
      have hmems : p ∈ normalizeState (goal.conditions.filter
          fun q => !(mind_satisfies_pattern mind q)) := by
        rw [normalizeState]
        exact (List.perm_insertionSort patternLe _).mem_iff.2 hmemf
      exact hsound mind p hmems

/-! The witness instance: one action (Rest) whose single effect
(Self, Energy, 100) exactly achieves the single goal condition. -/

/-- The witness effect triple. -/
def tW : Triple := Triple.mk' .Self_ .Energy (.int 100)

/-- The witness goal pattern. -/
def patW : TriplePattern := ⟨some .Self_, some .Energy, some (.int 100)⟩

/-- The witness action. -/
def actW : ActionTemplate := ⟨"Rest", .Sleep, none, none, [], [tW], 1⟩

/-- The witness goal. -/
def goalW : Goal := ⟨[patW], 1⟩

theorem assert_tW_triples (M : MindGraph) :
    ∃ l', (M.assert tW).triples = l' ++ [tW] := by
  unfold MindGraph.assert
  rw [if_neg (by decide)]
  rw [if_pos (by decide)]
  cases hbp : M.by_subject_pred tW.subject tW.predicate with
  | some i => exact ⟨_, rfl⟩
  | none => exact ⟨_, rfl⟩

theorem getLast_filter_range_succ (n : Nat) (p : Nat → Bool)
    (h : p n = true) :
    ((List.range (n + 1)).filter p).getLast? = some n := by
  rw [List.range_succ, List.filter_append]
  rw [List.filter_singleton, h]
  show (List.filter p (List.range n) ++ [n]).getLast? = some n
  exact List.getLast?_concat _

theorem by_subject_pred_last (M : MindGraph) (l' : List Triple)
    (t : Triple) (hT : M.triples = l' ++ [t])
    (hf : t.predicate.is_functional = true) :
    M.by_subject_pred t.subject t.predicate = some l'.length := by
  unfold MindGraph.by_subject_pred
  rw [if_pos hf, hT]
  have hlen : (l' ++ [t]).length = l'.length + 1 := by simp
  rw [hlen]
  refine getLast_filter_range_succ l'.length _ ?_
  unfold idxMatches
  rw [List.getElem?_concat_length]
  exact decide_eq_true ⟨rfl, rfl⟩

theorem by_subject_last (M : MindGraph) (l' : List Triple) (t : Triple)
    (hT : M.triples = l' ++ [t]) :
    l'.length ∈ M.by_subject t.subject := by
  unfold MindGraph.by_subject
  rw [hT]
  rw [List.mem_filter]
  constructor
  · rw [List.mem_range]
    simp
  · unfold idxMatches
    rw [List.getElem?_concat_length]
    exact decide_eq_true rfl

theorem by_predicate_last (M : MindGraph) (l' : List Triple) (t : Triple)
    (hT : M.triples = l' ++ [t]) :
    l'.length ∈ M.by_predicate t.predicate := by
  unfold MindGraph.by_predicate
  rw [hT]
  rw [List.mem_filter]
  constructor
  · rw [List.mem_range]
    simp
  · unfold idxMatches
    rw [List.getElem?_concat_length]
    exact decide_eq_true rfl

theorem mem_queryLocal_last_ss (M : MindGraph) (l' : List Triple)
    (t : Triple) (hT : M.triples = l' ++ [t])
    (hf : t.predicate.is_functional = true) (po : Option Value)
    (hm : tripleMatches (some t.subject) (some t.predicate) po t = true) :
    t ∈ M.queryLocal (some t.subject) (some t.predicate) po := by
  rw [MindGraph.queryLocal]
  rw [by_subject_pred_last M l' t hT hf]
  dsimp only
  rw [hT, List.getElem?_concat_length]
  dsimp only
  rw [if_pos hm]
  exact List.mem_cons_self ..

theorem mem_queryLocal_last_sn (M : MindGraph) (l' : List Triple)
    (t : Triple) (hT : M.triples = l' ++ [t]) (po : Option Value)
    (hm : tripleMatches (some t.subject) none po t = true) :
    t ∈ M.queryLocal (some t.subject) none po := by
  rw [MindGraph.queryLocal]
  rw [List.mem_filter]
  refine ⟨?_, hm⟩
  rw [List.mem_filterMap]
  refine ⟨l'.length, by_subject_last M l' t hT, ?_⟩
  rw [hT, List.getElem?_concat_length]

theorem mem_queryLocal_last_np (M : MindGraph) (l' : List Triple)
    (t : Triple) (hT : M.triples = l' ++ [t]) (po : Option Value)
    (hm : tripleMatches none (some t.predicate) po t = true) :
    t ∈ M.queryLocal none (some t.predicate) po := by
  rw [MindGraph.queryLocal]
  rw [List.mem_filter]
  refine ⟨?_, hm⟩
  rw [List.mem_filterMap]
  refine ⟨l'.length, by_predicate_last M l' t hT, ?_⟩
  rw [hT, List.getElem?_concat_length]

theorem mem_queryLocal_last_nn (M : MindGraph) (l' : List Triple)
    (t : Triple) (hT : M.triples = l' ++ [t]) (po : Option Value)
    (hm : tripleMatches none none po t = true) :
    t ∈ M.queryLocal none none po := by
  rw [MindGraph.queryLocal]
  rw [List.mem_filter]
  refine ⟨?_, hm⟩
  rw [hT]
  exact List.mem_append_right _ (List.mem_cons_self ..)

theorem sat_after_assert_tW (M : MindGraph) (pat : TriplePattern)
    (h : pattern_matches_triple pat tW = true) :
    mind_satisfies_pattern (M.assert tW) pat = true := by
  obtain ⟨l', hT⟩ := assert_tW_triples M
  obtain ⟨ps, pp, po⟩ := pat
  rw [mind_satisfies_pattern]
  dsimp only
  rw [List.any_eq_true]
  refine ⟨tW, ?_, by decide⟩
  rw [MindGraph.query]
  refine List.mem_append_right _ ?_
  cases ps with
  | some s =>
    cases pp with
    | some p =>
      cases po with
      | some o =>
        simp only [pattern_matches_triple, Bool.and_eq_true, Bool.not_not,
          decide_eq_true_eq, Bool.not_false, and_true, true_and] at h
        obtain ⟨⟨hs, hp⟩, ho⟩ := h
        subst hs
        subst hp
        subst ho
        exact mem_queryLocal_last_ss (M.assert tW) l' tW hT (by decide) _
          (by decide)
      | none =>
        simp only [pattern_matches_triple, Bool.and_eq_true, Bool.not_not,
          decide_eq_true_eq, Bool.not_false, and_true, true_and] at h
        obtain ⟨hs, hp⟩ := h
        subst hs
        subst hp
        exact mem_queryLocal_last_ss (M.assert tW) l' tW hT (by decide)
          none (by decide)
    | none =>
      cases po with
      | some o =>
        simp only [pattern_matches_triple, Bool.and_eq_true, Bool.not_not,
          decide_eq_true_eq, Bool.not_false, and_true, true_and] at h
        obtain ⟨hs, ho⟩ := h
        subst hs
        subst ho
        exact mem_queryLocal_last_sn (M.assert tW) l' tW hT _ (by decide)
      | none =>
        simp only [pattern_matches_triple, Bool.and_eq_true, Bool.not_not,
          decide_eq_true_eq, Bool.not_false, and_true, true_and] at h
        subst h
        exact mem_queryLocal_last_sn (M.assert tW) l' tW hT none
          (by decide)
  | none =>
    cases pp with
    | some p =>
      cases po with
      | some o =>
        simp only [pattern_matches_triple, Bool.and_eq_true, Bool.not_not,
          decide_eq_true_eq, Bool.not_false, and_true, true_and] at h
        obtain ⟨hp, ho⟩ := h
        subst hp
        subst ho
        exact mem_queryLocal_last_np (M.assert tW) l' tW hT _ (by decide)
      | none =>
        simp only [pattern_matches_triple, Bool.and_eq_true, Bool.not_not,
          decide_eq_true_eq, Bool.not_false, and_true, true_and] at h
        subst h
        exact mem_queryLocal_last_np (M.assert tW) l' tW hT none
          (by decide)
    | none =>
      cases po with
      | some o =>
        simp only [pattern_matches_triple, Bool.and_eq_true, Bool.not_not,
          decide_eq_true_eq, Bool.not_false, and_true, true_and] at h
        subst h
        exact mem_queryLocal_last_nn (M.assert tW) l' tW hT _ (by decide)
      | none =>
        exact mem_queryLocal_last_nn (M.assert tW) l' tW hT none
          (by decide)

/-- Witness for the amended C2: with goal (Self, Energy, 100) and the
single action Rest (effect (Self, Energy, 100), no preconditions,
cost 1), all hypotheses hold, the planner returns the one-step plan, and
executing it satisfies every goal condition. -/
theorem c2_plan_soundness_witness :
    regressive_plan (fun _ => (0 : ℚ)) MindGraph.default goalW [actW]
        = some [actW] ∧
      (∀ p ∈ goalW.conditions,
        mind_satisfies_pattern (execPlan MindGraph.default [actW]) p
          = true) :=
  ⟨by decide,
    c2_plan_soundness (fun _ => (0 : ℚ)) MindGraph.default goalW [actW]
      [actW]
      (by
        intro a ha
        rw [List.mem_singleton.1 ha]
        decide)
      (by
        intro a ha pat hsat M
        rw [List.mem_singleton.1 ha] at hsat ⊢
        have hm : pattern_matches_triple pat tW = true := by
          simp only [action_satisfies_pattern, actW, List.any_cons,
            List.any_nil, Bool.or_false] at hsat
          exact hsat
        exact sat_after_assert_tW M pat hm)
      (by
        intro a ha pat hpat M hold
        rw [List.mem_singleton.1 ha]
        have hp : pat = patW := by
          simp only [Closure, goalW, actW, List.flatMap_cons,
            List.flatMap_nil, List.append_nil, List.mem_singleton] at hpat
          exact hpat
        rw [hp]
        exact sat_after_assert_tW M patW (by decide))
      (by
        intro pat hpat
        have hp : pat = patW := by
          simp only [Closure, goalW, actW, List.flatMap_cons,
            List.flatMap_nil, List.append_nil, List.mem_singleton] at hpat
          exact hpat
        rw [hp]
        decide)
      (by decide)⟩

end Worldsim
